import Mathlib

/-!
Verification of the core of `write-you-a-git` (a minimal content-addressable
git-like object store written in Rust) against its natural-language
specification.

The Rust sources are shallowly embedded: byte sequences (`Vec<u8>`, and the
UTF-8 byte content of `String`s) become `List Nat`; `BTreeMap<String, Vec<String>>`
becomes a key-sorted association list over byte lists (the abstract model of a
B-tree map, with byte-lexicographic order matching Rust's `String` ordering on
UTF-8 text); fallible operations return `Option`/explicit result inductives in
which Rust panics (`unwrap`, `expect`, `assert!`, out-of-bounds slicing,
`panic!`) are a distinguished outcome, and the non-advancing `while` loop of
`tree_parse` is a distinguished divergence outcome.  Recursive procedures whose
termination the Rust code does not guarantee take an explicit fuel parameter.
-/

namespace WyaG

/-- Bytes of a Rust `Vec<u8>` or of a Rust `String` (its UTF-8 code units). -/
abbrev Bytes := List Nat

/-- Index of the first occurrence of byte `b` in `l`
(Rust `iter().position(|x| x == &b)`). -/
def firstIdx : Bytes → Nat → Option Nat
  | [], _ => none
  | a :: as, b => if a = b then some 0 else (firstIdx as b).map (· + 1)

/-- Index (relative to `s`) of the first occurrence of `b` in `l` at or after
position `s` (Rust `iter().skip(s).position(|x| x == &b)`). -/
def firstIdxFrom (l : Bytes) (s : Nat) (b : Nat) : Option Nat :=
  firstIdx (l.drop s) b

/-- The absolute position the kvlm parser computes from a
`iter().skip(s).position(..)` search: the code runs
`*opt.get_or_insert(s) + s`, so a hit at relative index `p` yields `p + s`
and a miss yields `s + s`. -/
def posOr2s (l : Bytes) (s : Nat) (b : Nat) : Nat :=
  match firstIdxFrom l s b with
  | some p => p + s
  | none => s + s

/-- Rust slice `&l[i..j]`: defined when `i ≤ j ≤ l.length`, otherwise the
slice operation panics (modelled by `none`). -/
def sliceOpt (l : Bytes) (i j : Nat) : Option Bytes :=
  if i ≤ j ∧ j ≤ l.length then some ((l.drop i).take (j - i)) else none

/-- Rust slice `&l[i..]`: defined when `i ≤ l.length`, otherwise panics. -/
def sliceFrom (l : Bytes) (i : Nat) : Option Bytes :=
  if i ≤ l.length then some (l.drop i) else none

/-- UTF-8 validity of a byte sequence, as checked by Rust's
`String::from_utf8` (RFC 3629: no overlong forms, no surrogates,
no code points above U+10FFFF). -/
def validUtf8 : Bytes → Bool
  | [] => true
  | b :: rest =>
    if b < 0x80 then validUtf8 rest
    else if 0xC2 ≤ b ∧ b ≤ 0xDF then
      match rest with
      | c1 :: rest' => if 0x80 ≤ c1 ∧ c1 ≤ 0xBF then validUtf8 rest' else false
      | [] => false
    else if b = 0xE0 then
      match rest with
      | c1 :: c2 :: rest' =>
        if (0xA0 ≤ c1 ∧ c1 ≤ 0xBF) ∧ (0x80 ≤ c2 ∧ c2 ≤ 0xBF) then validUtf8 rest' else false
      | _ => false
    else if (0xE1 ≤ b ∧ b ≤ 0xEC) ∨ b = 0xEE ∨ b = 0xEF then
      match rest with
      | c1 :: c2 :: rest' =>
        if (0x80 ≤ c1 ∧ c1 ≤ 0xBF) ∧ (0x80 ≤ c2 ∧ c2 ≤ 0xBF) then validUtf8 rest' else false
      | _ => false
    else if b = 0xED then
      match rest with
      | c1 :: c2 :: rest' =>
        if (0x80 ≤ c1 ∧ c1 ≤ 0x9F) ∧ (0x80 ≤ c2 ∧ c2 ≤ 0xBF) then validUtf8 rest' else false
      | _ => false
    else if b = 0xF0 then
      match rest with
      | c1 :: c2 :: c3 :: rest' =>
        if (0x90 ≤ c1 ∧ c1 ≤ 0xBF) ∧ (0x80 ≤ c2 ∧ c2 ≤ 0xBF) ∧ (0x80 ≤ c3 ∧ c3 ≤ 0xBF) then
          validUtf8 rest'
        else false
      | _ => false
    else if 0xF1 ≤ b ∧ b ≤ 0xF3 then
      match rest with
      | c1 :: c2 :: c3 :: rest' =>
        if (0x80 ≤ c1 ∧ c1 ≤ 0xBF) ∧ (0x80 ≤ c2 ∧ c2 ≤ 0xBF) ∧ (0x80 ≤ c3 ∧ c3 ≤ 0xBF) then
          validUtf8 rest'
        else false
      | _ => false
    else if b = 0xF4 then
      match rest with
      | c1 :: c2 :: c3 :: rest' =>
        if (0x80 ≤ c1 ∧ c1 ≤ 0x8F) ∧ (0x80 ≤ c2 ∧ c2 ≤ 0xBF) ∧ (0x80 ≤ c3 ∧ c3 ≤ 0xBF) then
          validUtf8 rest'
        else false
      | _ => false
    else false

/-- Rust `String::from_utf8`: succeeds (returning the same code units)
exactly on valid UTF-8. -/
def fromUtf8 (b : Bytes) : Option Bytes :=
  if validUtf8 b then some b else none

/-- ASCII for one lowercase hex digit. -/
def hexDigit (d : Nat) : Nat :=
  if d < 10 then 48 + d else 87 + d

/-- Rust `hex::encode`: lowercase hex text of a byte sequence. -/
def hexEncode (b : Bytes) : Bytes :=
  b.flatMap (fun x => [hexDigit (x / 16), hexDigit (x % 16)])

/-- ASCII decimal digits of `n` (Rust `usize::to_string`). -/
def natToDecimal (n : Nat) : Bytes :=
  if h : n < 10 then [48 + n]
  else natToDecimal (n / 10) ++ [48 + n % 10]
  decreasing_by exact Nat.div_lt_self (by omega) (by omega)

/-- Fold ASCII digits to the number they denote; `none` if a byte is not a
digit or the sequence is empty. -/
def parseDigits : Bytes → Option Nat
  | [] => none
  | l => go l 0
where
  go : Bytes → Nat → Option Nat
    | [], acc => some acc
    | d :: rest, acc => if 48 ≤ d ∧ d ≤ 57 then go rest (acc * 10 + (d - 48)) else none

/-- Rust `str::parse::<usize>`: optional leading `+`, then one or more
decimal digits (numeric overflow is not modelled). -/
def parseUsize : Bytes → Option Nat
  | 43 :: rest => parseDigits rest
  | b => parseDigits b

end WyaG

namespace WyaG

/-! ## Tree codec (src/git_objects/git_tree.rs) -/

/-- Rust `Leaf(mode, path, sha)` from git_tree.rs: file mode text, path text and
the digest already rendered to lowercase hex text. -/
structure LeafT where
  mode : Bytes
  path : Bytes
  sha : Bytes
deriving DecidableEq, Repr

/-- Outcome of `tree_parse_one`: `stop` models the `?`-returns of the two
`position` searches (`None` from the function), `panicked` models the mode
length `assert!`, the out-of-range digest slice and the two
`String::from_utf8(..).expect(..)` calls. -/
inductive T1Res where
  | stop
  | panicked
  | found (next : Nat) (leaf : LeafT)
deriving DecidableEq, Repr

/-- Rust `tree_parse_one(raw, Some start)` from git_tree.rs. -/
def treeParseOne (raw : Bytes) (start : Nat) : T1Res :=
  match firstIdxFrom raw start 32 with
  | none => .stop
  | some xrel =>
    let x := xrel + start
    if x - start = 5 ∨ x - start = 6 then
      match sliceOpt raw start x with
      | none => .panicked
      | some modeB =>
        match firstIdxFrom raw x 0 with
        | none => .stop
        | some yrel =>
          let y := yrel + x
          match sliceOpt raw (x + 1) y with
          | none => .panicked
          | some pathB =>
            match sliceOpt raw (y + 1) (y + 21) with
            | none => .panicked
            | some shaB =>
              match fromUtf8 modeB, fromUtf8 pathB with
              | some m, some p => .found (y + 21) ⟨m, p, hexEncode shaB⟩
              | _, _ => .panicked
    else .panicked

/-- Outcome of `tree_parse`.  `diverged` models the infinite loop the Rust
`while pos < max` runs when `tree_parse_one` returns `None`: the loop body
then leaves `pos` (and all other state) unchanged, so the condition repeats
forever; `fuelOut` is the fuel-exhaustion artifact of the embedding (never
reached with the default fuel, which exceeds the maximal number of
productive steps). -/
inductive TRes where
  | ok (items : List LeafT)
  | panicked
  | diverged
  | fuelOut
deriving DecidableEq, Repr

/-- Loop of `tree_parse` from git_tree.rs. -/
def treeParseAux (raw : Bytes) : Nat → Nat → List LeafT → TRes
  | fuel, pos, acc =>
    if pos < raw.length then
      match treeParseOne raw pos with
      | .stop => .diverged
      | .panicked => .panicked
      | .found next leaf =>
        match fuel with
        | 0 => .fuelOut
        | fuel' + 1 => treeParseAux raw fuel' next (acc ++ [leaf])
    else .ok acc

/-- Rust `tree_parse(raw)` from git_tree.rs. -/
def treeParse (raw : Bytes) : TRes :=
  treeParseAux raw (raw.length + 1) 0 []

/-- Rust `tree_serialize` from git_tree.rs: per leaf it formats
`"{mode} {path}\x00{sha}"` — note it emits the stored `sha` field, which is
the 40-character hex TEXT produced by parsing, not 20 raw digest bytes. -/
def treeSerialize (items : List LeafT) : Bytes :=
  (items.map (fun l => l.mode ++ 32 :: l.path ++ 0 :: l.sha)).flatten

end WyaG

namespace WyaG

/-! ## KVLM codec (src/git_objects/git_object.rs) -/

/-- Byte-lexicographic strict order; this is the order of Rust `String`s
(`Ord` on chars agrees with the order of their UTF-8 bytes). -/
def bytesLt : Bytes → Bytes → Bool
  | [], [] => false
  | [], _ :: _ => true
  | _ :: _, [] => false
  | a :: as, b :: bs => if a < b then true else if b < a then false else bytesLt as bs

/-- Abstract model of `BTreeMap<String, Vec<String>>`: an association list
kept strictly sorted on keys by `bytesLt`. -/
abbrev Kvlm := List (Bytes × List Bytes)

/-- Rust `BTreeMap::get`. -/
def btGet : Kvlm → Bytes → Option (List Bytes)
  | [], _ => none
  | (k', vs) :: rest, k => if k = k' then some vs else btGet rest k

/-- Rust `BTreeMap::insert` (overwrites an existing entry), keeping the list
sorted. -/
def btInsert : Kvlm → Bytes → List Bytes → Kvlm
  | [], k, vs => [(k, vs)]
  | (k', vs') :: rest, k, vs =>
    if k = k' then (k, vs) :: rest
    else if bytesLt k k' then (k, vs) :: (k', vs') :: rest
    else (k', vs') :: btInsert rest k vs

/-- Rust `dict.entry(key).and_modify(|v| v.extend_from_slice(&[value])).or_insert(vec![value])`:
append `v` to the entry of `k`, creating a singleton entry if absent. -/
def btAppend : Kvlm → Bytes → Bytes → Kvlm
  | [], k, v => [(k, [v])]
  | (k', vs') :: rest, k, v =>
    if k = k' then (k', vs' ++ [v]) :: rest
    else if bytesLt k k' then (k, [v]) :: (k', vs') :: rest
    else (k', vs') :: btAppend rest k v

/-- Rust `value.replace("\n", "\n ")` (continuation-line re-indent on
encode). -/
def encCont : Bytes → Bytes
  | [] => []
  | b :: rest => if b = 10 then 10 :: 32 :: encCont rest else b :: encCont rest

/-- Rust `value.replace("\n ", "\n")` (continuation-line unindent on decode:
leftmost non-overlapping matches, exactly as `str::replace` — on a match
the scan resumes after both replaced bytes). -/
def decCont : Bytes → Bytes
  | [] => []
  | [b] => [b]
  | b :: c :: rest =>
    if b = 10 ∧ c = 32 then 10 :: decCont rest else b :: decCont (c :: rest)

/-- Every newline byte in the sequence is immediately followed (within the
sequence) by a space byte.  This holds of every encoded continuation value
and is what makes the value-end scan of the parser skip it whole. -/
def nlSpace : Bytes → Bool
  | [] => true
  | [b] => b != 10
  | b :: c :: rest => if b = 10 then c == 32 && nlSpace (c :: rest) else nlSpace (c :: rest)

/-- The value-end scan of `kvlm_parse`: starting from `endPos`, repeatedly
find the next newline (Rust panics — modelled `none` — if there is none) and
continue while the byte after it is a space (indexing past the end also
panics).  Fuel is an embedding artifact; `data.length + 1` always suffices
because the cursor strictly increases and stays below `data.length`. -/
def findValueEnd (data : Bytes) : Nat → Nat → Option Nat
  | _, 0 => none
  | endPos, fuel + 1 =>
    match firstIdxFrom data (endPos + 1) 10 with
    | none => none
    | some p =>
      let e := p + endPos + 1
      match data.get? (e + 1) with
      | none => none
      | some b => if b = 32 then findValueEnd data e fuel else some e

/-- Outcome of `kvlm_parse`: `ok` is `Ok(dict)`, `utf8Err` is
`Err(FromUtf8Error)` (the `?`-propagated typed error), `panicked` covers the
`assert!`, the `unwrap` of the value-end scan and out-of-range slices, and
`fuelOut` is the fuel artifact (unreachable with the default fuel since each
recursive step advances the cursor). -/
inductive KRes where
  | ok (dict : Kvlm)
  | utf8Err
  | panicked
  | fuelOut
deriving DecidableEq, Repr

/-- Rust `GitObjectData::kvlm_parse(start, dct)` from git_object.rs. -/
def kvlmParseAux (data : Bytes) : Nat → Nat → Kvlm → KRes
  | 0, _, _ => .fuelOut
  | fuel + 1, start, dict =>
    let spc := posOr2s data start 32
    let nl := posOr2s data start 10
    if nl < spc then
      -- base case: blank line, the remainder is the message
      if nl = start then
        match sliceFrom data (start + 1) with
        | none => .panicked
        | some rest =>
          match fromUtf8 rest with
          | none => .utf8Err
          | some msg => .ok (btInsert dict [] [msg])
      else .panicked
    else
      -- recursive case: read one key-value pair
      match sliceOpt data start spc with
      | none => .panicked
      | some keyB =>
        match fromUtf8 keyB with
        | none => .utf8Err
        | some key =>
          match findValueEnd data start (data.length + 1) with
          | none => .panicked
          | some e =>
            match sliceOpt data (spc + 1) e with
            | none => .panicked
            | some vraw =>
              match fromUtf8 vraw with
              | none => .utf8Err
              | some v =>
                kvlmParseAux data fuel (e + 1) (btAppend dict key (decCont v))

/-- Rust `kvlm_parse(None, None)` on a payload. -/
def kvlmParse (data : Bytes) : KRes :=
  kvlmParseAux data (data.length + 1) 0 []

/-- Rust `GitObjectData::kvlm_serialize` from git_object.rs: emit
`key SP re-indented-value NL` for every value of every non-empty key in map
order, then a blank line and the message `kvlm.get("").unwrap()[0]`
(`none` models the `unwrap`/index panic when the message entry is missing
or empty). -/
def kvlmSerialize (m : Kvlm) : Option Bytes :=
  match btGet m [] with
  | some (msg :: _) =>
    some
      (((m.map fun p =>
            if p.1 = [] then []
            else (p.2.map fun v => p.1 ++ 32 :: encCont v ++ [10]).flatten).flatten)
        ++ 10 :: msg)
  | _ => none

end WyaG

namespace WyaG

/-! ## Object store (src/repository.rs, src/git_objects/git_object.rs) -/

/-- The typed object a successful `read_object` constructs: the closed view
of the `Box<dyn GitSerDe>` variants (Blob stores its raw payload, Commit its
parsed kvlm, Tree its parsed leaves). -/
inductive GitObj where
  | blob (content : Bytes)
  | commit (kvlm : Kvlm)
  | tree (items : List LeafT)
deriving DecidableEq, Repr

/-- ASCII bytes of `"blob"`. -/
def blobTag : Bytes := [98, 108, 111, 98]
/-- ASCII bytes of `"commit"`. -/
def commitTag : Bytes := [99, 111, 109, 109, 105, 116]
/-- ASCII bytes of `"tree"`. -/
def treeTag : Bytes := [116, 114, 101, 101]
/-- ASCII bytes of `"parent"`. -/
def parentKey : Bytes := [112, 97, 114, 101, 110, 116]

/-- Outcome of `read_object` on the decompressed bytes of an object file.
`errUtf8`/`errParseInt` are the typed, `?`-propagated
`ReadObjectErrorType` results from decoding the size field; `panicked`
covers every `unwrap`/`panic!` on this path (missing space, invalid type
tag text, out-of-range slice, the "Malformed object: bad length" `panic!`,
the unknown-type `panic!`, and panics inside the typed constructors);
`diverged` is inherited from `tree_parse`'s non-terminating loop. -/
inductive RRes where
  | ok (obj : GitObj)
  | errUtf8
  | errParseInt
  | panicked
  | diverged
deriving DecidableEq, Repr

/-- Is the outcome one of the typed, recoverable `ReadObjectErrorType`
results (as opposed to a success, a panic, or divergence)? -/
def RRes.isTypedErr : RRes → Bool
  | .errUtf8 => true
  | .errParseInt => true
  | _ => false

/-- The decoding part of `Repository::read_object` from repository.rs,
applied to the decompressed file bytes `raw` (file location, decompression
and the repo back-reference are external I/O collaborators): split at the
first space (type tag) and the following NUL, decode and check the declared
size, then dispatch to the typed constructor. -/
def readObject (raw : Bytes) : RRes :=
  match firstIdxFrom raw 0 32 with
  | none => .panicked
  | some x =>
    match sliceOpt raw 0 x with
    | none => .panicked
    | some tagB =>
      match fromUtf8 tagB with
      | none => .panicked
      | some objectType =>
        -- `let y = *skip(x).position(NUL).get_or_insert(x) + x`
        let y := match firstIdxFrom raw x 0 with
          | some yrel => yrel + x
          | none => x + x
        match sliceOpt raw (x + 1) y with
        | none => .panicked
        | some sizeB =>
          match fromUtf8 sizeB with
          | none => .errUtf8
          | some sizeText =>
            match parseUsize sizeText with
            | none => .errParseInt
            | some size =>
              if y + 1 > raw.length then .panicked
              else if size ≠ raw.length - y - 1 then .panicked
              else
                match sliceFrom raw (y + 1) with
                | none => .panicked
                | some objectData =>
                  if objectType = commitTag then
                    match kvlmParse objectData with
                    | .ok m => .ok (.commit m)
                    | .utf8Err => .panicked   -- Commit::deserialize `.expect(..)`
                    | .panicked => .panicked
                    | .fuelOut => .diverged
                  else if objectType = blobTag then .ok (.blob objectData)
                  else if objectType = treeTag then
                    match treeParse objectData with
                    | .ok items => .ok (.tree items)
                    | .panicked => .panicked
                    | .diverged => .diverged
                    | .fuelOut => .diverged
                  else .panicked              -- `panic!("Unknown type")`

/-- Rust `GitSerDe::serialize` dispatched over the three variants (Blob returns
its stored data, Commit delegates to `kvlm_serialize`, Tree to
`tree_serialize`); `none` models the panic inside `kvlm_serialize` when the
message entry is missing. -/
def serializeObj : GitObj → Option (Bytes × Bytes)
  | .blob c => some (blobTag, c)
  | .commit m => (kvlmSerialize m).map (fun b => (commitTag, b))
  | .tree items => some (treeTag, treeSerialize items)

/-- Outcome of `GitObject::write_object`: the returned digest text together
with the write effects actually performed — each effect is the repo-relative
path segments and the framed bytes handed to the compression/file layer.
`panicked` covers the `String::from_utf8(data_vec).unwrap()` on non-UTF-8
payload bytes and the panic inside `serialize` itself. -/
inductive WRes where
  | ok (hash : Bytes) (writes : List (List Bytes × Bytes))
  | panicked
deriving DecidableEq, Repr

/-- The identifier returned by `write_object`, when it returns. -/
def WRes.hashOf : WRes → Option Bytes
  | .ok h _ => some h
  | .panicked => none

/-- Rust `GitObject::write_object(obj, actually_write)` from git_object.rs.  The
cryptographic digest is the external Digest adapter, passed in as `sha1`
(the spec leaves its contract to the library); `actually_write` mirrors the
Rust `Option<bool>` where only `Some(false)` suppresses the write. -/
def writeObject (sha1 : Bytes → Bytes) (obj : GitObj) (actuallyWrite : Option Bool) : WRes :=
  match serializeObj obj with
  | none => .panicked
  | some (fmt, dataVec) =>
    match fromUtf8 dataVec with
    | none => .panicked
    | some dataString =>
      let dataLength := dataString.length
      let result := fmt ++ 32 :: natToDecimal dataLength ++ 0 :: dataString
      let hash := sha1 result
      let writes :=
        match actuallyWrite with
        | some false => []
        | _ => [([[111, 98, 106, 101, 99, 116, 115], hash.take 2, hash.drop 2], result)]
      .ok hash writes

/-- Rust `Repository::object_find(name, _fmt, _follow)` from repository.rs. -/
def objectFind (name : Bytes) (_fmt : Option Bytes) (_follow : Option Bool) : Bytes :=
  name

/-- The object files of a repository: each entry maps a 40-hex-char
identifier to the decompressed bytes of its object file (file lookup and
zlib are external collaborators). -/
abbrev Store := List (Bytes × Bytes)

/-- Look up the decompressed object file for an identifier; `none` models
`File::open` failing with an I/O error. -/
def storeGet : Store → Bytes → Option Bytes
  | [], _ => none
  | (sha, raw) :: rest, k => if k = sha then some raw else storeGet rest k

end WyaG

namespace WyaG

/-! ## Traversal operations (src/repository.rs) -/

/-- A filesystem effect of `tree_checkout`: `create_dir_all` or
`File::create` + `write_all`.  Paths are segment lists rooted at the
destination. -/
inductive FsAction where
  | mkdirAll (path : List Bytes)
  | writeFile (path : List Bytes) (content : Bytes)
deriving DecidableEq, Repr

/-- Outcome of `tree_checkout`. -/
inductive CRes where
  | ok
  | err        -- a `?`-propagated ReadObjectErrorType (I/O or decode)
  | panicked
  | diverged
  | fuelOut
deriving DecidableEq, Repr

/-- Rust `Repository::tree_checkout(tree, path)` from repository.rs: for
each `Leaf(_, object_path, sha)` resolve the object; a Tree leaf `create_dir_all`s
`path.join(object_path)` and recurses **with the original `path`**; a Blob
leaf writes its serialized data to `path.join(object_path)`; any other
object panics.  Fuel is decremented on every recursive step (embedding
artifact only). -/
def treeCheckout (store : Store) : Nat → List LeafT → List Bytes → CRes × List FsAction
  | 0, _, _ => (.fuelOut, [])
  | _ + 1, [], _ => (.ok, [])
  | fuel + 1, leaf :: rest, path =>
    match storeGet store leaf.sha with
    | none => (.err, [])
    | some raw =>
      match readObject raw with
      | .errUtf8 => (.err, [])
      | .errParseInt => (.err, [])
      | .panicked => (.panicked, [])
      | .diverged => (.diverged, [])
      | .ok obj =>
        let dest := path ++ [leaf.path]
        match obj with
        | .tree items =>
          let sub := treeCheckout store fuel items path
          (match sub.1 with
           | .ok =>
             let cont := treeCheckout store fuel rest path
             (cont.1, .mkdirAll dest :: sub.2 ++ cont.2)
           | r => (r, .mkdirAll dest :: sub.2))
        | .blob content =>
          let cont := treeCheckout store fuel rest path
          (cont.1, .writeFile dest content :: cont.2)
        | .commit _ => (.panicked, [])

/-- Outcome flag of `log_graphviz`. -/
inductive LRes where
  | ok
  | err        -- a `?`-propagated ReadObjectErrorType
  | panicked
  | diverged
  | fuelOut
deriving DecidableEq, Repr

/-- Full result of a `log_graphviz` run: outcome, the `c_child -> c_parent;`
edges printed in order, the final visited set (Rust `HashSet`, modelled as
an unordered membership list), and the identifiers that passed the
visited-set guard, in processing order. -/
structure LogOut where
  res : LRes
  edges : List (Bytes × Bytes)
  seen : List Bytes
  processed : List Bytes
deriving DecidableEq, Repr

mutual

/-- Rust `Repository::log_graphviz(sha, seen)` from repository.rs: return at once
if `seen` already contains `sha`; otherwise insert it, read the object,
rebuild a Commit from its serialized data, stop if it has no `parent`
header, else for each parent print the edge then recurse. -/
def logGraphviz (store : Store) (sha : Bytes) (seen : List Bytes) : Nat → LogOut
  | 0 => ⟨.fuelOut, [], seen, []⟩
  | fuel + 1 =>
    if sha ∈ seen then ⟨.ok, [], seen, []⟩
    else
      let seen1 := sha :: seen
      match storeGet store sha with
      | none => ⟨.err, [], seen1, [sha]⟩
      | some raw =>
        match readObject raw with
        | .errUtf8 => ⟨.err, [], seen1, [sha]⟩
        | .errParseInt => ⟨.err, [], seen1, [sha]⟩
        | .panicked => ⟨.panicked, [], seen1, [sha]⟩
        | .diverged => ⟨.diverged, [], seen1, [sha]⟩
        | .ok obj =>
          match serializeObj obj with
          | none => ⟨.panicked, [], seen1, [sha]⟩
          | some (_, d) =>
            -- `Commit::new(..., object.get_data())` re-parses the data
            match kvlmParse d with
            | .utf8Err => ⟨.panicked, [], seen1, [sha]⟩   -- `.expect(..)`
            | .panicked => ⟨.panicked, [], seen1, [sha]⟩
            | .fuelOut => ⟨.diverged, [], seen1, [sha]⟩
            | .ok km =>
              match btGet km parentKey with
              | none => ⟨.ok, [], seen1, [sha]⟩           -- root commit
              | some parents =>
                let r := logParents store sha parents seen1 fuel
                ⟨r.res, r.edges, r.seen, sha :: r.processed⟩
termination_by fuel => (fuel, 0)

/-- The `for p in parents` loop of `log_graphviz`: print `(sha, p)`, recurse
into `p`, propagate the first error (edges already printed remain
printed). -/
def logParents (store : Store) (sha : Bytes) :
    List Bytes → List Bytes → Nat → LogOut
  | [], seen, _ => ⟨.ok, [], seen, []⟩
  | p :: ps, seen, fuel =>
    let r := logGraphviz store p seen fuel
    match r.res with
    | .ok =>
      let rest := logParents store sha ps r.seen fuel
      ⟨rest.res, (sha, p) :: (r.edges ++ rest.edges), rest.seen, r.processed ++ rest.processed⟩
    | e => ⟨e, (sha, p) :: r.edges, r.seen, r.processed⟩
termination_by ps _ fuel => (fuel, ps.length + 1)

end

end WyaG



namespace WyaG

/-! ## Specification-side descriptions of well-formed payloads -/

/-- One well-formed on-wire tree entry: mode text, path text and the 20 raw
digest bytes, as laid out by the tree payload format. -/
structure TreeEntrySpec where
  mode : Bytes
  path : Bytes
  digest : Bytes
deriving DecidableEq, Repr

/-- Well-formedness of one tree entry per the format: 5- or 6-byte mode
containing no space, NUL-free path, exactly 20 digest bytes, and UTF-8
mode/path text. -/
def TreeEntryWF (e : TreeEntrySpec) : Prop :=
  (e.mode.length = 5 ∨ e.mode.length = 6) ∧ 32 ∉ e.mode ∧ validUtf8 e.mode = true ∧
    0 ∉ e.path ∧ validUtf8 e.path = true ∧ e.digest.length = 20

instance (e : TreeEntrySpec) : Decidable (TreeEntryWF e) := by
  unfold TreeEntryWF
  infer_instance

/-- On-wire bytes of one tree entry: `mode SP path NUL digest`. -/
def renderEntry (e : TreeEntrySpec) : Bytes :=
  e.mode ++ 32 :: e.path ++ 0 :: e.digest

/-- The leaf `tree_parse` builds from a well-formed entry (digest rendered
to hex text). -/
def leafOfEntry (e : TreeEntrySpec) : LeafT :=
  ⟨e.mode, e.path, hexEncode e.digest⟩

/-- On-wire bytes of one kvlm header line `key SP encoded-value NL`; the
second component is the value as it appears on the wire (with continuation
lines space-indented). -/
def renderHeader (p : Bytes × Bytes) : Bytes :=
  p.1 ++ 32 :: p.2 ++ [10]

/-- On-wire bytes of a whole kvlm payload: the header lines, the blank
line, and the message. -/
def renderKvlm (hs : List (Bytes × Bytes)) (msg : Bytes) : Bytes :=
  (hs.map renderHeader).flatten ++ 10 :: msg

/-- Well-formedness of one on-wire header: non-empty key free of space and
newline bytes, valid UTF-8 key and value, every newline of the encoded
value followed by a space (the continuation discipline). -/
def HdrWF (p : Bytes × Bytes) : Prop :=
  p.1 ≠ [] ∧ 32 ∉ p.1 ∧ 10 ∉ p.1 ∧ validUtf8 p.1 = true ∧ validUtf8 p.2 = true ∧
    nlSpace p.2 = true

instance (p : Bytes × Bytes) : Decidable (HdrWF p) := by
  unfold HdrWF
  infer_instance

/-- A well-formed kvlm byte sequence: at least one well-formed header line,
then the blank line, then a UTF-8 message. -/
def WellFormedKvlm (b : Bytes) : Prop :=
  ∃ hs msg, hs ≠ [] ∧ (∀ p ∈ hs, HdrWF p) ∧ validUtf8 msg = true ∧ b = renderKvlm hs msg

/-- The dictionary obtained by feeding the decoded header lines to the
parser's `entry/and_modify/or_insert` update, in order. -/
def foldAppend (dict : Kvlm) (hs : List (Bytes × Bytes)) : Kvlm :=
  hs.foldl (fun d p => btAppend d p.1 (decCont p.2)) dict

/-- Strict key-sortedness: the representation invariant of the `BTreeMap`
model. -/
def KvSorted (m : Kvlm) : Prop :=
  m.Pairwise fun p q => bytesLt p.1 q.1 = true

/-- The header lines `kvlm_serialize` emits for map `m`, as (key, encoded
value) pairs in map order, message entry skipped. -/
def hdrsOf (m : Kvlm) : List (Bytes × Bytes) :=
  m.flatMap fun p => if p.1 = [] then [] else p.2.map fun v => (p.1, encCont v)

/-- The decoded values of key `k` among the header lines `hs`, in input
order. -/
def vsOf (hs : List (Bytes × Bytes)) (k : Bytes) : List Bytes :=
  (hs.filter fun p => p.1 == k).map fun p => decCont p.2

/-! Concrete object stores used to evaluate the traversal operations. -/

/-- Digest bytes of the nested subtree object. -/
def c2digestTree : Bytes := List.replicate 19 0 ++ [1]
/-- Digest bytes of the nested blob object. -/
def c2digestBlob : Bytes := List.replicate 20 0
/-- Payload of the subtree: one entry `"100644 a.txt\x00"` + blob digest. -/
def c2innerPayload : Bytes :=
  [49, 48, 48, 54, 52, 52, 32, 97, 46, 116, 120, 116, 0] ++ c2digestBlob
/-- Decompressed object file of the subtree: `"tree 33\x00"` + payload. -/
def c2treeRaw : Bytes := [116, 114, 101, 101, 32, 51, 51, 0] ++ c2innerPayload
/-- Decompressed object file of the blob: `"blob 2\x00hi"`. -/
def c2blobRaw : Bytes := [98, 108, 111, 98, 32, 50, 0, 104, 105]
/-- Store holding the subtree and its blob, keyed by hex identifiers. -/
def c2store : Store :=
  [(hexEncode c2digestTree, c2treeRaw), (hexEncode c2digestBlob, c2blobRaw)]
/-- Items of the outer tree: one subtree leaf `("40000", "dir", <tree id>)`. -/
def c2outerItems : List LeafT :=
  [⟨[52, 48, 48, 48, 48], [100, 105, 114], hexEncode c2digestTree⟩]

/-- Identifier text of the root commit (`"c0ffee"`). -/
def c8shaRoot : Bytes := [99, 48, 102, 102, 101, 101]
/-- Identifier text of the child commit (`"beef"`). -/
def c8shaChild : Bytes := [98, 101, 101, 102]
/-- Decompressed object file of the root commit:
`"commit 10\x00tree aa\n\nm"` (no `parent` header). -/
def c8rootRaw : Bytes :=
  [99, 111, 109, 109, 105, 116, 32, 49, 48, 0] ++
    [116, 114, 101, 101, 32, 97, 97, 10, 10, 109]
/-- Decompressed object file of the child commit:
`"commit 25\x00tree bb\nparent c0ffee\n\nm2"`. -/
def c8childRaw : Bytes :=
  [99, 111, 109, 109, 105, 116, 32, 50, 53, 0] ++
    ([116, 114, 101, 101, 32, 98, 98, 10] ++
      ([112, 97, 114, 101, 110, 116, 32] ++ c8shaRoot ++ [10]) ++
      (10 :: [109, 50]))
/-- Store holding the two commits. -/
def c8store : Store := [(c8shaRoot, c8rootRaw), (c8shaChild, c8childRaw)]

/-- Parsed kvlm of the root commit. -/
def c8kmRoot : Kvlm :=
  [([], [[109]]), ([116, 114, 101, 101], [[97, 97]])]
/-- Serialized payload of the root commit's kvlm. -/
def c8dRoot : Bytes := [116, 114, 101, 101, 32, 97, 97, 10, 10, 109]
/-- Parsed kvlm of the child commit. -/
def c8kmChild : Kvlm :=
  [([], [[109, 50]]), (parentKey, [[99, 48, 102, 102, 101, 101]]),
    ([116, 114, 101, 101], [[98, 98]])]
/-- Serialized payload of the child commit's kvlm (headers in map order). -/
def c8dChild : Bytes :=
  [112, 97, 114, 101, 110, 116, 32, 99, 48, 102, 102, 101, 101, 10] ++
    [116, 114, 101, 101, 32, 98, 98, 10] ++ [10, 109, 50]

/-- Invariant of one `log_graphviz` run relative to the visited set it
started from: the identifiers processed in the run are pairwise distinct,
none of them was in the initial set, and the final set is exactly the
initial set plus the processed ones. -/
def LogInv (r : LogOut) (seen : List Bytes) : Prop :=
  r.processed.Nodup ∧ (∀ s ∈ r.processed, s ∉ seen) ∧
    (∀ s, s ∈ r.seen ↔ s ∈ seen ∨ s ∈ r.processed)

end WyaG

namespace WyaG

/-! ## Generic lemmas about the byte-sequence primitives -/

theorem firstIdx_cons_self (b : Nat) (l : Bytes) : firstIdx (b :: l) b = some 0 := by
  simp [firstIdx]

theorem firstIdx_append_some {u : Bytes} {b : Nat} (hu : b ∉ u) {v : Bytes} {p : Nat}
    (hv : firstIdx v b = some p) : firstIdx (u ++ v) b = some (p + u.length) := by
  induction u with
  | nil => simpa using hv
  | cons a as ih =>
    have ha : a ≠ b := fun h => hu (by simp [h])
    have has : b ∉ as := fun h => hu (List.mem_cons_of_mem _ h)
    have h2 := ih has
    simp [firstIdx, ha, h2, List.length_cons]
    omega

theorem firstIdx_lt_length {l : Bytes} {b p : Nat} (h : firstIdx l b = some p) :
    p < l.length := by
  induction l generalizing p with
  | nil => simp [firstIdx] at h
  | cons a as ih =>
    by_cases ha : a = b
    · simp [firstIdx, ha] at h
      simp [List.length_cons]
      omega
    · simp [firstIdx, ha] at h
      obtain ⟨q, hq, hpq⟩ := h
      have := ih hq
      simp [List.length_cons]
      omega

theorem firstIdx_decomp {l : Bytes} {b p : Nat} (h : firstIdx l b = some p) :
    ∃ u v, l = u ++ b :: v ∧ u.length = p ∧ b ∉ u := by
  induction l generalizing p with
  | nil => simp [firstIdx] at h
  | cons a as ih =>
    by_cases ha : a = b
    · subst ha
      simp [firstIdx] at h
      exact ⟨[], as, rfl, h, by simp⟩
    · simp [firstIdx, ha] at h
      obtain ⟨q, hq, hpq⟩ := h
      obtain ⟨u, v, rfl, hlen, hnm⟩ := ih hq
      refine ⟨a :: u, v, rfl, ?_, ?_⟩
      · simp [hlen]
        omega
      · intro hmem
        rcases List.mem_cons.mp hmem with h1 | h2
        · exact ha h1.symm
        · exact hnm h2

theorem drop_of_drop_eq {data : Bytes} {s : Nat} {u v : Bytes}
    (h : data.drop s = u ++ v) : data.drop (s + u.length) = v := by
  have h2 : (data.drop s).drop u.length = data.drop (s + u.length) :=
    List.drop_drop u.length s data
  rw [← h2, h, List.drop_left]

theorem length_eq_of_drop_eq {data : Bytes} {s : Nat} {u v : Bytes}
    (h : data.drop s = u ++ v) (hs : s ≤ data.length) :
    data.length = s + u.length + v.length := by
  have := congrArg List.length h
  simp [List.length_drop] at this
  omega

theorem lt_length_of_drop_cons {data : Bytes} {s a : Nat} {r : Bytes}
    (h : data.drop s = a :: r) : s < data.length := by
  by_contra hle
  push_neg at hle
  rw [List.drop_eq_nil_of_le hle] at h
  cases h

theorem le_length_of_drop_nil {data : Bytes} {s : Nat}
    (h : data.drop s = []) : data.length ≤ s := by
  by_contra hlt
  push_neg at hlt
  have := congrArg List.length h
  simp [List.length_drop] at this
  omega

theorem sliceOpt_spec {data : Bytes} {s : Nat} {u v : Bytes}
    (h : data.drop s = u ++ v) (hs : s ≤ data.length) :
    sliceOpt data s (s + u.length) = some u := by
  have hlen := length_eq_of_drop_eq h hs
  unfold sliceOpt
  rw [if_pos (by omega)]
  congr 1
  have h1 : s + u.length - s = u.length := by omega
  rw [h1, h, List.take_left]

theorem get?_of_drop_cons {data : Bytes} {s a : Nat} {r : Bytes}
    (h : data.drop s = a :: r) : data.get? s = some a := by
  have h0 : (data.drop s).get? 0 = some a := by rw [h]; rfl
  rwa [List.get?_drop, Nat.add_zero] at h0

end WyaG

namespace WyaG

/-! ## Lemmas about the byte-list order and the map operations -/

theorem bytesLt_irrefl (l : Bytes) : bytesLt l l = false := by
  induction l with
  | nil => rfl
  | cons a as ih => simp [bytesLt, ih]

theorem ne_of_bytesLt {a b : Bytes} (h : bytesLt a b = true) : a ≠ b := by
  intro he
  subst he
  rw [bytesLt_irrefl] at h
  cases h

theorem bytesLt_asymm : ∀ {a b : Bytes}, bytesLt a b = true → bytesLt b a = false
  | [], [], h => by cases h
  | [], _ :: _, _ => rfl
  | _ :: _, [], h => by cases h
  | x :: xs, y :: ys, h => by
    simp only [bytesLt] at h ⊢
    rcases Nat.lt_trichotomy x y with h1 | h1 | h1
    · simp [h1, Nat.lt_asymm h1]
    · subst h1
      simp [Nat.lt_irrefl] at h ⊢
      exact bytesLt_asymm h
    · simp [h1, Nat.lt_asymm h1] at h

theorem bytesLt_trans : ∀ {a b c : Bytes},
    bytesLt a b = true → bytesLt b c = true → bytesLt a c = true
  | [], _, _ :: _, _, _ => rfl
  | [], _ :: _, [], _, h2 => by cases h2
  | [], [], _, h1, _ => by cases h1
  | _ :: _, [], _, h1, _ => by cases h1
  | _ :: _, _ :: _, [], _, h2 => by cases h2
  | x :: xs, y :: ys, z :: zs, h1, h2 => by
    simp only [bytesLt] at h1 h2 ⊢
    rcases Nat.lt_trichotomy x y with hxy | hxy | hxy
    · rcases Nat.lt_trichotomy y z with hyz | hyz | hyz
      · simp [Nat.lt_trans hxy hyz]
      · subst hyz; simp [hxy]
      · simp [hyz, Nat.lt_asymm hyz] at h2
    · subst hxy
      rcases Nat.lt_trichotomy x z with hxz | hxz | hxz
      · simp [hxz]
      · subst hxz
        simp [Nat.lt_irrefl] at h1 h2 ⊢
        exact bytesLt_trans h1 h2
      · simp [hxz, Nat.lt_asymm hxz] at h2
    · simp [hxy, Nat.lt_asymm hxy] at h1

theorem bytesLt_total (a b : Bytes) : a = b ∨ bytesLt a b = true ∨ bytesLt b a = true := by
  induction a generalizing b with
  | nil =>
    cases b with
    | nil => exact Or.inl rfl
    | cons y ys => exact Or.inr (Or.inl rfl)
  | cons x xs ih =>
    cases b with
    | nil => exact Or.inr (Or.inr rfl)
    | cons y ys =>
      rcases Nat.lt_trichotomy x y with h | h | h
      · refine Or.inr (Or.inl ?_)
        simp [bytesLt, h]
      · subst h
        rcases ih ys with h2 | h2 | h2
        · exact Or.inl (by rw [h2])
        · refine Or.inr (Or.inl ?_)
          simp [bytesLt, Nat.lt_irrefl, h2]
        · refine Or.inr (Or.inr ?_)
          simp [bytesLt, Nat.lt_irrefl, h2]
      · refine Or.inr (Or.inr ?_)
        simp [bytesLt, h, Nat.lt_asymm h]

theorem bytesLt_nil {k : Bytes} (h : k ≠ []) : bytesLt [] k = true := by
  cases k with
  | nil => exact absurd rfl h
  | cons a as => rfl

end WyaG

namespace WyaG

/-! ## Lemmas about continuation-line encoding -/

theorem nlSpace_cons_ne {b : Nat} (hb : b ≠ 10) (r : Bytes) :
    nlSpace (b :: r) = nlSpace r := by
  cases r with
  | nil => simp [nlSpace, hb]
  | cons c rest => simp [nlSpace, hb]

theorem nlSpace_ten {c : Nat} {rest : Bytes} (h : nlSpace (10 :: c :: rest) = true) :
    c = 32 ∧ nlSpace (32 :: rest) = true := by
  simp [nlSpace] at h
  obtain ⟨h1, h2⟩ := h
  subst h1
  exact ⟨rfl, h2⟩

theorem nlSpace_tail {a : Nat} {r : Bytes} (h : nlSpace (a :: r) = true) :
    nlSpace r = true := by
  by_cases ha : a = 10
  · subst ha
    cases r with
    | nil => rfl
    | cons c rest =>
      obtain ⟨hc, hrest⟩ := nlSpace_ten h
      subst hc
      exact hrest
  · rwa [nlSpace_cons_ne ha] at h

theorem nlSpace_append {u v : Bytes} (hu : 10 ∉ u) (hv : nlSpace v = true) :
    nlSpace (u ++ v) = true := by
  induction u with
  | nil => simpa using hv
  | cons a as ih =>
    have ha : a ≠ 10 := fun h => hu (by simp [h])
    rw [List.cons_append, nlSpace_cons_ne ha]
    exact ih fun h => hu (List.mem_cons_of_mem _ h)

theorem decCont_encCont (v : Bytes) : decCont (encCont v) = v := by
  induction v with
  | nil => rfl
  | cons b rest ih =>
    by_cases hb : b = 10
    · subst hb
      simp [encCont, decCont, ih]
    · rw [encCont, if_neg hb]
      cases he : encCont rest with
      | nil =>
        rw [he] at ih
        simp [decCont] at ih
        simp [decCont, ← ih]
      | cons c tl =>
        rw [he] at ih
        have : ¬(b = 10 ∧ c = 32) := fun hc => hb hc.1
        rw [decCont, if_neg this, ih]

theorem nlSpace_encCont (v : Bytes) : nlSpace (encCont v) = true := by
  induction v with
  | nil => rfl
  | cons b rest ih =>
    by_cases hb : b = 10
    · subst hb
      have h32 : nlSpace (32 :: encCont rest) = true := by
        rw [nlSpace_cons_ne (by omega)]
        exact ih
      simp [encCont, nlSpace, h32]
    · rw [encCont, if_neg hb, nlSpace_cons_ne hb]
      exact ih

theorem encCont_decCont : ∀ (w : Bytes), nlSpace w = true → encCont (decCont w) = w
  | [], _ => rfl
  | [b], h => by
    have hb : b ≠ 10 := by simpa [nlSpace] using h
    simp [decCont, encCont, hb]
  | b :: c :: rest, h => by
    by_cases hb : b = 10
    · subst hb
      obtain ⟨hc, hrest⟩ := nlSpace_ten h
      subst hc
      have ihr := encCont_decCont rest (nlSpace_tail hrest)
      simp [decCont, encCont, ihr]
    · have h' : nlSpace (c :: rest) = true := by rwa [nlSpace_cons_ne hb] at h
      have ihr := encCont_decCont (c :: rest) h'
      have hcond : ¬(b = 10 ∧ c = 32) := fun hx => hb hx.1
      rw [decCont, if_neg hcond, encCont, if_neg hb, ihr]

theorem nlSpace_suffix {u v : Bytes} (h : nlSpace (u ++ v) = true) : nlSpace v = true := by
  induction u with
  | nil => exact h
  | cons a as ih => exact ih (nlSpace_tail h)

theorem firstIdx_eq_none {l : Bytes} {b : Nat} (h : b ∉ l) : firstIdx l b = none := by
  induction l with
  | nil => rfl
  | cons a as ih =>
    have ha : a ≠ b := fun he => h (by simp [he])
    have has : b ∉ as := fun hm => h (List.mem_cons_of_mem _ hm)
    simp [firstIdx, ha, ih has]

theorem not_mem_of_firstIdx_none {l : Bytes} {b : Nat} (h : firstIdx l b = none) :
    b ∉ l := by
  intro hmem
  induction l with
  | nil => cases hmem
  | cons a as ih =>
    by_cases ha : a = b
    · simp [firstIdx, ha] at h
    · simp [firstIdx, ha] at h
      rcases List.mem_cons.mp hmem with h1 | h2
      · exact ha h1.symm
      · exact ih h h2

end WyaG

namespace WyaG

/-! ## The value-end scan of the kvlm parser -/

theorem findValueEnd_spec {data : Bytes} :
    ∀ (fuel : Nat) (w : Bytes) (endPos b : Nat) (rest : Bytes),
      nlSpace w = true → b ≠ 32 →
      data.drop (endPos + 1) = w ++ 10 :: b :: rest →
      w.length + 1 ≤ fuel →
      findValueEnd data endPos fuel = some (endPos + 1 + w.length) := by
  intro fuel
  induction fuel with
  | zero =>
    intro w endPos b rest _ _ _ hf
    omega
  | succ f ih =>
    intro w endPos b rest hw hb hdrop hf
    rw [findValueEnd]
    cases h10 : firstIdx w 10 with
    | none =>
      have hnm : 10 ∉ w := not_mem_of_firstIdx_none h10
      have hfi : firstIdx (w ++ 10 :: b :: rest) 10 = some (0 + w.length) :=
        firstIdx_append_some hnm (firstIdx_cons_self 10 (b :: rest))
      have hfi' : firstIdxFrom data (endPos + 1) 10 = some w.length := by
        rw [firstIdxFrom, hdrop, hfi, Nat.zero_add]
      rw [hfi']
      have hd2 : data.drop (endPos + 1 + (w ++ [10]).length) = b :: rest :=
        drop_of_drop_eq (by rw [hdrop]; simp)
      have hget : data.get? (w.length + endPos + 1 + 1) = some b := by
        have hx := get?_of_drop_cons hd2
        have harith : endPos + 1 + (w ++ [10]).length = w.length + endPos + 1 + 1 := by
          simp [List.length_append]
          omega
        rwa [harith] at hx
      dsimp only
      rw [hget]
      dsimp only
      rw [if_neg hb]
      congr 1
      omega
    | some i =>
      obtain ⟨w1, w2, hwdec, hlen, hnm⟩ := firstIdx_decomp h10
      have hsuf : nlSpace (10 :: w2) = true := by
        rw [hwdec] at hw
        exact nlSpace_suffix hw
      obtain ⟨w2', hw2⟩ : ∃ w2', w2 = 32 :: w2' := by
        cases w2 with
        | nil => simp [nlSpace] at hsuf
        | cons c w2'' =>
          obtain ⟨hc, _⟩ := nlSpace_ten hsuf
          exact ⟨w2'', by rw [hc]⟩
      subst hw2
      subst hwdec
      have hdrop1 : data.drop (endPos + 1) = w1 ++ 10 :: 32 :: (w2' ++ 10 :: b :: rest) := by
        rw [hdrop]
        simp
      have hfi : firstIdx (w1 ++ 10 :: 32 :: (w2' ++ 10 :: b :: rest)) 10 =
          some (0 + w1.length) :=
        firstIdx_append_some hnm (firstIdx_cons_self 10 _)
      have hfi' : firstIdxFrom data (endPos + 1) 10 = some w1.length := by
        rw [firstIdxFrom, hdrop1, hfi, Nat.zero_add]
      rw [hfi']
      have hd2 : data.drop (endPos + 1 + (w1 ++ [10]).length) =
          32 :: (w2' ++ 10 :: b :: rest) :=
        drop_of_drop_eq (by rw [hdrop1]; simp)
      have hget : data.get? (w1.length + endPos + 1 + 1) = some 32 := by
        have hx := get?_of_drop_cons hd2
        have harith : endPos + 1 + (w1 ++ [10]).length = w1.length + endPos + 1 + 1 := by
          simp [List.length_append]
          omega
        rwa [harith] at hx
      dsimp only
      rw [hget]
      dsimp only
      rw [if_pos rfl]
      have hrec : data.drop (w1.length + endPos + 1 + 1) =
          (32 :: w2') ++ 10 :: b :: rest := by
        have harith : endPos + 1 + (w1 ++ [10]).length = w1.length + endPos + 1 + 1 := by
          simp [List.length_append]
          omega
        rw [← harith, hd2]
        simp
      have hfuel2 : (32 :: w2').length + 1 ≤ f := by
        simp [List.length_append, List.length_cons] at hf ⊢
        omega
      have hih := ih (32 :: w2') (w1.length + endPos + 1) b rest
        ((nlSpace_ten hsuf).2) hb hrec hfuel2
      rw [hih]
      congr 1
      simp [List.length_append, List.length_cons]
      omega

end WyaG

namespace WyaG

/-! ## Correctness of the kvlm parser on well-formed payloads -/

theorem renderKvlm_cons (k v : Bytes) (hs : List (Bytes × Bytes)) (msg : Bytes) :
    renderKvlm ((k, v) :: hs) msg = (k ++ 32 :: v ++ [10]) ++ renderKvlm hs msg := by
  simp [renderKvlm, renderHeader]

theorem renderKvlm_head {hs : List (Bytes × Bytes)} (msg : Bytes)
    (hwf : ∀ p ∈ hs, HdrWF p) :
    ∃ b tl, renderKvlm hs msg = b :: tl ∧ b ≠ 32 := by
  cases hs with
  | nil =>
    refine ⟨10, msg, ?_, by omega⟩
    simp [renderKvlm]
  | cons p hs' =>
    obtain ⟨k, v⟩ := p
    obtain ⟨hk, h32, -⟩ := hwf (k, v) (by simp)
    cases k with
    | nil => exact absurd rfl hk
    | cons b ktl =>
      refine ⟨b, ktl ++ 32 :: v ++ [10] ++ renderKvlm hs' msg, ?_, ?_⟩
      · rw [renderKvlm_cons]
        simp
      · intro hbe
        exact h32 (by simp [hbe])

theorem renderKvlm_length (hs : List (Bytes × Bytes)) (msg : Bytes) :
    hs.length + 1 ≤ (renderKvlm hs msg).length := by
  induction hs with
  | nil => simp [renderKvlm]
  | cons p hs' ih =>
    obtain ⟨k, v⟩ := p
    rw [renderKvlm_cons]
    simp only [List.length_append, List.length_cons, List.length_nil] at ih ⊢
    omega

theorem kvlmParseAux_render :
    ∀ (hs : List (Bytes × Bytes)) (fuel : Nat) (data : Bytes) (start : Nat) (dict : Kvlm)
      (msg : Bytes),
      (∀ p ∈ hs, HdrWF p) → validUtf8 msg = true →
      data.drop start = renderKvlm hs msg →
      (hs = [] → 1 ≤ start) →
      hs.length + 1 ≤ fuel →
      kvlmParseAux data fuel start dict = .ok (btInsert (foldAppend dict hs) [] [msg]) := by
  intro hs
  induction hs with
  | nil =>
    intro fuel data start dict msg _ hmsg hdrop hstart hfuel
    obtain ⟨f, rfl⟩ : ∃ f, fuel = f + 1 := ⟨fuel - 1, by omega⟩
    have hstart1 : 1 ≤ start := hstart rfl
    have hdrop' : data.drop start = 10 :: msg := by simpa [renderKvlm] using hdrop
    have hnl : posOr2s data start 10 = start := by
      unfold posOr2s firstIdxFrom
      rw [hdrop', firstIdx_cons_self]
      simp
    have hspc : start < posOr2s data start 32 := by
      unfold posOr2s firstIdxFrom
      rw [hdrop']
      have h1 : firstIdx (10 :: msg) 32 = (firstIdx msg 32).map (· + 1) := by
        simp [firstIdx]
      rw [h1]
      cases h32 : firstIdx msg 32 with
      | none =>
        simp only [Option.map_none']
        omega
      | some p =>
        simp only [Option.map_some']
        omega
    have hsf : sliceFrom data (start + 1) = some msg := by
      have hlen := length_eq_of_drop_eq (u := [10]) (v := msg) (by simpa using hdrop')
        (le_of_lt (lt_length_of_drop_cons hdrop'))
      unfold sliceFrom
      rw [if_pos (by simp at hlen; omega)]
      have hdd := drop_of_drop_eq (u := [10]) (v := msg) (by simpa using hdrop')
      simpa using hdd
    simp only [kvlmParseAux]
    rw [hnl, if_pos hspc, if_pos rfl, hsf]
    simp only [fromUtf8, hmsg, if_true]
    rfl
  | cons p hs' ih =>
    intro fuel data start dict msg hwf hmsg hdrop hstart hfuel
    obtain ⟨k, vEnc⟩ := p
    obtain ⟨hk, hk32, hk10, hkU, hvU, hvNS⟩ := hwf (k, vEnc) (by simp)
    have hwf' : ∀ q ∈ hs', HdrWF q := fun q hq => hwf q (by simp [hq])
    obtain ⟨f, rfl⟩ : ∃ f, fuel = f + 1 := ⟨fuel - 1, by omega⟩
    have hdropA : data.drop start = k ++ 32 :: (vEnc ++ 10 :: renderKvlm hs' msg) := by
      rw [hdrop, renderKvlm_cons]
      simp
    obtain ⟨kb, ktl, rfl⟩ : ∃ kb ktl, k = kb :: ktl := by
      cases k with
      | nil => exact absurd rfl hk
      | cons kb ktl => exact ⟨kb, ktl, rfl⟩
    have hsle : start ≤ data.length :=
      le_of_lt (lt_length_of_drop_cons (by simpa using hdropA))
    have hlenEq := length_eq_of_drop_eq hdropA hsle
    have hspc : posOr2s data start 32 = start + (kb :: ktl).length := by
      unfold posOr2s firstIdxFrom
      rw [hdropA, firstIdx_append_some hk32 (firstIdx_cons_self 32 _)]
      dsimp only
      omega
    have hnl : start + (kb :: ktl).length + 1 ≤ posOr2s data start 10 := by
      unfold posOr2s firstIdxFrom
      rw [hdropA]
      have hnm : 10 ∉ ((kb :: ktl) ++ [32]) := by
        intro hmem
        rcases List.mem_append.mp hmem with h | h
        · exact hk10 h
        · simp at h
      obtain ⟨j, hj⟩ : ∃ j, firstIdx (vEnc ++ 10 :: renderKvlm hs' msg) 10 = some j := by
        cases hfi : firstIdx (vEnc ++ 10 :: renderKvlm hs' msg) 10 with
        | some j => exact ⟨j, rfl⟩
        | none => exact absurd (by simp : (10 : Nat) ∈ _) (not_mem_of_firstIdx_none hfi)
      have hstep : firstIdx ((kb :: ktl) ++ 32 :: (vEnc ++ 10 :: renderKvlm hs' msg)) 10 =
          some (j + ((kb :: ktl) ++ [32]).length) := by
        have h0 := firstIdx_append_some hnm hj
        simpa using h0
      rw [hstep]
      dsimp only
      simp only [List.length_append, List.length_cons, List.length_nil]
      omega
    obtain ⟨bh, tl, hrender, hbh⟩ := renderKvlm_head msg hwf'
    have hdropShift : data.drop (start + 1) = (ktl ++ 32 :: vEnc) ++ 10 :: bh :: tl := by
      have h0 := drop_of_drop_eq (u := [kb])
        (v := ktl ++ 32 :: (vEnc ++ 10 :: renderKvlm hs' msg)) (by simpa using hdropA)
      rw [hrender] at h0
      simpa using h0
    have hNSw : nlSpace (ktl ++ 32 :: vEnc) = true := by
      refine nlSpace_append (fun hmem => hk10 (List.mem_cons_of_mem _ hmem)) ?_
      rw [nlSpace_cons_ne (by omega)]
      exact hvNS
    have hfuelw : (ktl ++ 32 :: vEnc).length + 1 ≤ data.length + 1 := by
      simp only [List.length_append, List.length_cons, List.length_nil] at hlenEq ⊢
      omega
    have hfve : findValueEnd data start (data.length + 1) =
        some (start + (kb :: ktl).length + vEnc.length + 1) := by
      rw [findValueEnd_spec (data.length + 1) (ktl ++ 32 :: vEnc) start bh tl
        hNSw hbh hdropShift hfuelw]
      congr 1
      simp only [List.length_append, List.length_cons, List.length_nil]
      omega
    have hdropV : data.drop (start + (kb :: ktl).length + 1) =
        vEnc ++ 10 :: renderKvlm hs' msg := by
      have h0 := drop_of_drop_eq (u := (kb :: ktl) ++ [32])
        (v := vEnc ++ 10 :: renderKvlm hs' msg) (by simpa using hdropA)
      have harith : start + ((kb :: ktl) ++ [32]).length = start + (kb :: ktl).length + 1 := by
        simp only [List.length_append, List.length_cons, List.length_nil]
        omega
      rwa [harith] at h0
    have hval : sliceOpt data (start + (kb :: ktl).length + 1)
        (start + (kb :: ktl).length + 1 + vEnc.length) = some vEnc :=
      sliceOpt_spec hdropV (by simp only [List.length_cons] at hlenEq ⊢; omega)
    have hdropNext : data.drop (start + (kb :: ktl).length + vEnc.length + 1 + 1) =
        renderKvlm hs' msg := by
      have hpre : data.drop (start + (kb :: ktl).length + 1) =
          (vEnc ++ [10]) ++ renderKvlm hs' msg := by
        rw [hdropV]
        simp
      have h0 := drop_of_drop_eq hpre
      have harith : start + (kb :: ktl).length + 1 + (vEnc ++ [10]).length =
          start + (kb :: ktl).length + vEnc.length + 1 + 1 := by
        simp only [List.length_append, List.length_cons, List.length_nil]
        omega
      rwa [harith] at h0
    have hkey : sliceOpt data start (start + (kb :: ktl).length) = some (kb :: ktl) :=
      sliceOpt_spec hdropA hsle
    simp only [kvlmParseAux]
    rw [hspc]
    rw [if_neg (by omega)]
    rw [hkey]
    simp only [fromUtf8, hkU, if_true]
    rw [hfve]
    have harithE : start + (kb :: ktl).length + vEnc.length + 1 =
        start + (kb :: ktl).length + 1 + vEnc.length := by omega
    rw [harithE]
    dsimp only
    rw [hval]
    simp only [fromUtf8, hvU, if_true]
    have hrec := ih f data (start + (kb :: ktl).length + 1 + vEnc.length + 1)
      (btAppend dict (kb :: ktl) (decCont vEnc)) msg hwf' hmsg
      (by rw [← hdropNext]; congr 1; omega)
      (fun h => by omega)
      (by simp only [List.length_cons] at hfuel; omega)
    rw [hrec]
    simp only [foldAppend, List.foldl_cons]

end WyaG

namespace WyaG

/-! ## Correctness of the tree parser on well-formed payloads -/

theorem treeParseOne_render {raw : Bytes} {pos : Nat} {e : TreeEntrySpec} {rest : Bytes}
    (hwf : TreeEntryWF e)
    (hdrop : raw.drop pos = renderEntry e ++ rest) :
    treeParseOne raw pos =
      .found (pos + e.mode.length + 1 + e.path.length + 21) (leafOfEntry e) := by
  obtain ⟨hm5, hm32, hmU, hp0, hpU, hd20⟩ := hwf
  have hdropA : raw.drop pos =
      e.mode ++ 32 :: (e.path ++ 0 :: (e.digest ++ rest)) := by
    rw [hdrop]
    simp [renderEntry]
  have hpos : pos ≤ raw.length := by
    cases hmode : e.mode with
    | nil =>
      rw [hmode] at hm5
      simp at hm5
    | cons mb mtl =>
      rw [hmode] at hdropA
      exact le_of_lt (lt_length_of_drop_cons (by simpa using hdropA))
  have hlenEq := length_eq_of_drop_eq hdropA hpos
  have hx : firstIdxFrom raw pos 32 = some e.mode.length := by
    unfold firstIdxFrom
    rw [hdropA, firstIdx_append_some hm32 (firstIdx_cons_self 32 _), Nat.zero_add]
  have hmode : sliceOpt raw pos (pos + e.mode.length) = some e.mode :=
    sliceOpt_spec hdropA hpos
  have hdropX : raw.drop (pos + e.mode.length) =
      32 :: (e.path ++ 0 :: (e.digest ++ rest)) :=
    drop_of_drop_eq hdropA
  have hy : firstIdxFrom raw (pos + e.mode.length) 0 = some (e.path.length + 1) := by
    unfold firstIdxFrom
    rw [hdropX]
    have hnm : (0 : Nat) ∉ (32 :: e.path) := by
      intro h
      rcases List.mem_cons.mp h with h | h
      · simp at h
      · exact hp0 h
    have h0 : firstIdx ((32 :: e.path) ++ 0 :: (e.digest ++ rest)) 0 =
        some (0 + (32 :: e.path).length) :=
      firstIdx_append_some hnm (firstIdx_cons_self 0 _)
    simp only [List.cons_append, Nat.zero_add, List.length_cons] at h0
    exact h0
  have hdropP : raw.drop (pos + e.mode.length + 1) =
      e.path ++ 0 :: (e.digest ++ rest) := by
    have hpre : raw.drop (pos + e.mode.length) =
        [32] ++ (e.path ++ 0 :: (e.digest ++ rest)) := by
      rw [hdropX]
      simp
    have h0 := drop_of_drop_eq hpre
    have harith : pos + e.mode.length + ([32] : Bytes).length =
        pos + e.mode.length + 1 := by
      simp
    rwa [harith] at h0
  have hpath : sliceOpt raw (pos + e.mode.length + 1)
      (pos + e.mode.length + 1 + e.path.length) = some e.path :=
    sliceOpt_spec hdropP (by
      simp only [List.length_append, List.length_cons, List.length_nil] at hlenEq ⊢
      omega)
  have hdropD : raw.drop (pos + e.mode.length + 1 + e.path.length + 1) =
      e.digest ++ rest := by
    have hpre : raw.drop (pos + e.mode.length + 1) =
        (e.path ++ [0]) ++ (e.digest ++ rest) := by
      rw [hdropP]
      simp
    have h0 := drop_of_drop_eq hpre
    have harith : pos + e.mode.length + 1 + (e.path ++ [0]).length =
        pos + e.mode.length + 1 + e.path.length + 1 := by
      simp only [List.length_append, List.length_cons, List.length_nil]
      omega
    rwa [harith] at h0
  have hsha : sliceOpt raw (pos + e.mode.length + 1 + e.path.length + 1)
      (pos + e.mode.length + 1 + e.path.length + 1 + 20) = some e.digest := by
    have h0 := sliceOpt_spec hdropD (by
      simp only [List.length_append, List.length_cons, List.length_nil] at hlenEq ⊢
      omega)
    rwa [hd20] at h0
  unfold treeParseOne
  rw [hx]
  dsimp only
  have hxcomm : e.mode.length + pos = pos + e.mode.length := by omega
  rw [hxcomm]
  rw [if_pos (by omega)]
  rw [hmode]
  dsimp only
  rw [hy]
  dsimp only
  have hycomm : e.path.length + 1 + (pos + e.mode.length) =
      pos + e.mode.length + 1 + e.path.length := by omega
  rw [hycomm]
  rw [hpath]
  dsimp only
  have h21 : pos + e.mode.length + 1 + e.path.length + 21 =
      pos + e.mode.length + 1 + e.path.length + 1 + 20 := by omega
  rw [h21, hsha]
  dsimp only
  simp only [fromUtf8, hmU, hpU, if_true]
  rfl

theorem treeParseAux_render :
    ∀ (es : List TreeEntrySpec) (fuel : Nat) (raw : Bytes) (pos : Nat) (acc : List LeafT),
      (∀ e ∈ es, TreeEntryWF e) →
      raw.drop pos = (es.map renderEntry).flatten →
      es.length + 1 ≤ fuel →
      treeParseAux raw fuel pos acc = .ok (acc ++ es.map leafOfEntry) := by
  intro es
  induction es with
  | nil =>
    intro fuel raw pos acc _ hdrop _
    have hle : raw.length ≤ pos := le_length_of_drop_nil (by simpa using hdrop)
    rw [treeParseAux]
    rw [if_neg (by omega)]
    simp
  | cons e es' ih =>
    intro fuel raw pos acc hwf hfdrop hfuel
    have hwfe := hwf e (by simp)
    have hwf' : ∀ x ∈ es', TreeEntryWF x := fun x hx => hwf x (by simp [hx])
    obtain ⟨f, rfl⟩ : ∃ f, fuel = f + 1 := ⟨fuel - 1, by omega⟩
    have hdropE : raw.drop pos = renderEntry e ++ (es'.map renderEntry).flatten := by
      rw [hfdrop]
      simp
    have hpos : pos < raw.length := by
      obtain ⟨hm5, -⟩ := hwfe
      cases hmode : e.mode with
      | nil =>
        rw [hmode] at hm5
        simp at hm5
      | cons mb mtl =>
        refine lt_length_of_drop_cons (a := mb)
          (r := mtl ++ 32 :: e.path ++ 0 :: e.digest ++ (es'.map renderEntry).flatten) ?_
        rw [hdropE, renderEntry, hmode]
        simp
    have hone := treeParseOne_render hwfe hdropE
    have hdropNext : raw.drop (pos + e.mode.length + 1 + e.path.length + 21) =
        (es'.map renderEntry).flatten := by
      have h0 := drop_of_drop_eq hdropE
      have harith : pos + (renderEntry e).length =
          pos + e.mode.length + 1 + e.path.length + 21 := by
        obtain ⟨-, -, -, -, -, hd20⟩ := hwfe
        simp only [renderEntry, List.length_append, List.length_cons]
        omega
      rwa [harith] at h0
    rw [treeParseAux]
    rw [if_pos hpos, hone]
    dsimp only
    have hrec := ih f raw (pos + e.mode.length + 1 + e.path.length + 21)
      (acc ++ [leafOfEntry e]) hwf' hdropNext
      (by simp only [List.length_cons] at hfuel; omega)
    rw [hrec]
    simp

end WyaG

namespace WyaG

/-! ## Basic claims about the store operations -/

/-- C9: `object_find(name, expected_type, follow)` returns the name
unchanged for every argument combination — it is the identity mapping on
names, with no short-hash expansion, ref resolution or dereferencing. -/
theorem c9_object_find_identity (name : Bytes) (fmt : Option Bytes) (follow : Option Bool) :
    objectFind name fmt follow = name := rfl

/-- C7: `write_object` returns an identifier determined solely by the
serialized object data — in particular it is the same whether or not the
write flag causes an actual write, and two objects with equal serialized
content receive equal identifiers (for every digest adapter `sha1`). -/
theorem c7_write_object_digest_deterministic (sha1 : Bytes → Bytes) (o1 o2 : GitObj)
    (w1 w2 : Option Bool) (h : serializeObj o1 = serializeObj o2) :
    (writeObject sha1 o1 w1).hashOf = (writeObject sha1 o2 w2).hashOf := by
  unfold writeObject
  rw [h]
  cases hs : serializeObj o2 with
  | none => rfl
  | some fd =>
    obtain ⟨fmt, dataVec⟩ := fd
    dsimp only
    cases hu : fromUtf8 dataVec <;> simp [WRes.hashOf]

/-- Witness for C7 at a concrete blob, write suppressed vs. performed. -/
theorem c7_write_object_digest_deterministic_witness :
    serializeObj (.blob [104, 105]) = serializeObj (.blob [104, 105]) ∧
      (writeObject id (.blob [104, 105]) (some false)).hashOf =
        (writeObject id (.blob [104, 105]) none).hashOf :=
  ⟨rfl, c7_write_object_digest_deterministic id (.blob [104, 105]) (.blob [104, 105])
    (some false) none rfl⟩

/-- C10: `write_object` panics (instead of returning an identifier) on any
blob whose content bytes are not valid UTF-8, because it runs the payload
through `String::from_utf8(..).unwrap()` before framing — even though blob
content is an opaque byte sequence. -/
theorem c10_write_object_panics_on_non_utf8 (sha1 : Bytes → Bytes) (c : Bytes)
    (w : Option Bool) (h : validUtf8 c = false) :
    writeObject sha1 (.blob c) w = .panicked := by
  unfold writeObject serializeObj fromUtf8
  simp [h]

/-- Witness for C10 at the single byte 0xFF. -/
theorem c10_write_object_panics_on_non_utf8_witness :
    validUtf8 [255] = false ∧ writeObject id (.blob [255]) none = .panicked :=
  ⟨by decide, c10_write_object_panics_on_non_utf8 id [255] none (by decide)⟩

/-- C1 (evaluation at the failing input): parsing the one-entry tree payload
`"100644 a\x00"` + raw digest bytes `0..19` succeeds, but re-serializing the
parsed tree does not reproduce the payload: `tree_serialize` emits the
40-character hex text of the digest instead of decoding it back to the 20
raw bytes. -/
theorem c1_tree_serialize_not_inverse_eval :
    treeParse ([49, 48, 48, 54, 52, 52, 32, 97, 0] ++ List.range 20) =
        .ok [⟨[49, 48, 48, 54, 52, 52], [97], hexEncode (List.range 20)⟩] ∧
      treeSerialize [⟨[49, 48, 48, 54, 52, 52], [97], hexEncode (List.range 20)⟩] ≠
        ([49, 48, 48, 54, 52, 52, 32, 97, 0] ++ List.range 20) := by
  constructor
  · decide
  · decide

/-- C5 (counterexample to totality): on the one-byte payload `"0"` the
`tree_parse` loop never terminates — `tree_parse_one` finds no space and
returns `None`, the loop body leaves `pos` unchanged, and the loop repeats
forever. -/
theorem c5_tree_parse_diverges_counterexample :
    treeParse [48] = .diverged := by decide

/-- C3 (counterexample to the typed-result part): on the decompressed bytes
`"blob 5\x00abc"` — declared length 5, actual payload length 3 — the
malformed-length check fires a `panic!`, which is not one of the typed,
recoverable `ReadObjectErrorType` results. -/
theorem c3_bad_length_panics_counterexample :
    readObject [98, 108, 111, 98, 32, 53, 0, 97, 98, 99] = .panicked ∧
      (readObject [98, 108, 111, 98, 32, 53, 0, 97, 98, 99]).isTypedErr = false := by
  constructor
  · decide
  · decide

end WyaG

namespace WyaG

/-! ## Claims about the tree parser, read_object and checkout -/

theorem renderEntries_length (es : List TreeEntrySpec) :
    es.length ≤ ((es.map renderEntry).flatten).length := by
  induction es with
  | nil => simp
  | cons e es' ih =>
    simp only [List.map_cons, List.flatten_cons, List.length_append, List.length_cons]
    have h1 : 1 ≤ (renderEntry e).length := by
      simp [renderEntry]
      omega
    omega

/-- C5 (amended): the empty payload validly decodes to zero entries, and on
every payload laid out as back-to-back well-formed entries `tree_parse`
terminates, decoding exactly those entries in order (digests rendered to
hex); totality on arbitrary inputs fails (see the counterexample). -/
theorem c5_tree_parse_amended :
    treeParse [] = .ok [] ∧
      ∀ es : List TreeEntrySpec, (∀ e ∈ es, TreeEntryWF e) →
        treeParse ((es.map renderEntry).flatten) = .ok (es.map leafOfEntry) := by
  constructor
  · decide
  · intro es hwf
    unfold treeParse
    have h := treeParseAux_render es (((es.map renderEntry).flatten).length + 1)
      ((es.map renderEntry).flatten) 0 [] hwf (by simp)
      (by have := renderEntries_length es; omega)
    simpa using h

/-- Witness for C5 at the two entries of end-to-end scenario B:
`("100644", "a.txt", d1)` then `("40000", "dir", d2)`. -/
theorem c5_tree_parse_amended_witness :
    (∀ e ∈ [(⟨[49, 48, 48, 54, 52, 52], [97, 46, 116, 120, 116], List.replicate 20 7⟩ :
          TreeEntrySpec),
        ⟨[52, 48, 48, 48, 48], [100, 105, 114], List.replicate 20 9⟩], TreeEntryWF e) ∧
      treeParse (([(⟨[49, 48, 48, 54, 52, 52], [97, 46, 116, 120, 116],
            List.replicate 20 7⟩ : TreeEntrySpec),
          ⟨[52, 48, 48, 48, 48], [100, 105, 114],
            List.replicate 20 9⟩].map renderEntry).flatten) =
        .ok ([(⟨[49, 48, 48, 54, 52, 52], [97, 46, 116, 120, 116],
            List.replicate 20 7⟩ : TreeEntrySpec),
          ⟨[52, 48, 48, 48, 48], [100, 105, 114], List.replicate 20 9⟩].map leafOfEntry) :=
  ⟨by decide, c5_tree_parse_amended.2 _ (by decide)⟩

/-- C3 (amended): whenever the decompressed object bytes have a space-
terminated tag of valid UTF-8 text, a NUL after it, and a size field that
decodes to a number different from the actual payload length, `read_object`
hits the `panic!("Malformed object .. bad length")` — it neither returns an
object nor a typed recoverable error, and never truncates or pads. -/
theorem c3_read_object_bad_length_amended (raw : Bytes) (x yrel : Nat)
    (sizeText : Bytes) (size : Nat)
    (hx : firstIdxFrom raw 0 32 = some x)
    (htag : validUtf8 (raw.take x) = true)
    (hy : firstIdxFrom raw x 0 = some yrel)
    (hslice : sliceOpt raw (x + 1) (yrel + x) = some sizeText)
    (hutf : validUtf8 sizeText = true)
    (hsz : parseUsize sizeText = some size)
    (hbad : size ≠ raw.length - (yrel + x) - 1) :
    readObject raw = .panicked := by
  have hxlt : x < raw.length := by
    have h0 : firstIdx (raw.drop 0) 32 = some x := hx
    rw [List.drop_zero] at h0
    exact firstIdx_lt_length h0
  have htagslice : sliceOpt raw 0 x = some (raw.take x) := by
    unfold sliceOpt
    rw [if_pos ⟨Nat.zero_le x, le_of_lt hxlt⟩]
    simp
  unfold readObject
  rw [hx]
  dsimp only
  rw [htagslice]
  dsimp only
  simp only [fromUtf8, htag, if_true]
  rw [hy]
  dsimp only
  rw [hslice]
  dsimp only
  simp only [hutf, if_true]
  rw [hsz]
  dsimp only
  by_cases hyl : yrel + x + 1 > raw.length
  · rw [if_pos hyl]
  · rw [if_neg hyl, if_pos hbad]

/-- Witness for C3 at `"blob 5\x00abc"` (declares 5 bytes, carries 3). -/
theorem c3_read_object_bad_length_amended_witness :
    firstIdxFrom [98, 108, 111, 98, 32, 53, 0, 97, 98, 99] 0 32 = some 4 ∧
      readObject [98, 108, 111, 98, 32, 53, 0, 97, 98, 99] = .panicked :=
  ⟨by decide,
    c3_read_object_bad_length_amended [98, 108, 111, 98, 32, 53, 0, 97, 98, 99]
      4 2 [53] 5 (by decide) (by decide) (by decide) (by decide) (by decide)
      (by decide) (by decide)⟩

/-- C2 (evaluation at the failing input): checking out a tree whose single
leaf `("40000", "dir", t)` resolves to a subtree containing the blob leaf
`("100644", "a.txt", b)` with blob content `"hi"`, into destination `["D"]`,
creates directory `D/dir` but writes the file at `D/a.txt` — not at
`D/dir/a.txt` — because the recursion reuses the original destination
root. -/
theorem c2_checkout_subtree_at_root_eval :
    treeCheckout c2store 10 c2outerItems [[68]] =
      (.ok, [.mkdirAll [[68], [100, 105, 114]],
             .writeFile [[68], [97, 46, 116, 120, 116]] [104, 105]]) := by
  decide

end WyaG

namespace WyaG

/-! ## Structure of the maps built by the kvlm parser -/

theorem btAppend_entry_cases : ∀ (m : Kvlm) (k v : Bytes) (q : Bytes × List Bytes),
    q ∈ btAppend m k v →
    q ∈ m ∨ (q.1 = k ∧ q.2 = [v]) ∨ ∃ vs0, (k, vs0) ∈ m ∧ q.1 = k ∧ q.2 = vs0 ++ [v]
  | [], k, v, q, h => by
    simp [btAppend] at h
    exact Or.inr (Or.inl (by rw [h]; exact ⟨rfl, rfl⟩))
  | (k0, vs0) :: rest, k, v, q, h => by
    rw [btAppend] at h
    split_ifs at h with h1 h2
    · subst h1
      rcases List.mem_cons.mp h with h | h
      · exact Or.inr (Or.inr ⟨vs0, List.mem_cons_self _ _, by rw [h], by rw [h]⟩)
      · exact Or.inl (List.mem_cons_of_mem _ h)
    · rcases List.mem_cons.mp h with h | h
      · exact Or.inr (Or.inl (by rw [h]; exact ⟨rfl, rfl⟩))
      · exact Or.inl h
    · rcases List.mem_cons.mp h with h | h
      · exact Or.inl (by rw [h]; exact List.mem_cons_self _ _)
      · rcases btAppend_entry_cases rest k v q h with h | h | ⟨vs1, hm, hq1, hq2⟩
        · exact Or.inl (List.mem_cons_of_mem _ h)
        · exact Or.inr (Or.inl h)
        · exact Or.inr (Or.inr ⟨vs1, List.mem_cons_of_mem _ hm, hq1, hq2⟩)

theorem foldAppend_key : ∀ (hs : List (Bytes × Bytes)) (d : Kvlm) (q : Bytes × List Bytes),
    q ∈ foldAppend d hs → (∃ vs, (q.1, vs) ∈ d) ∨ ∃ w, (q.1, w) ∈ hs := by
  intro hs
  induction hs with
  | nil =>
    intro d q h
    exact Or.inl ⟨q.2, h⟩
  | cons p hs' ih =>
    intro d q h
    obtain ⟨k1, w1⟩ := p
    rcases ih (btAppend d k1 (decCont w1)) q h with ⟨vs, hvs⟩ | ⟨w, hw⟩
    · rcases btAppend_entry_cases d k1 (decCont w1) (q.1, vs) hvs with h2 | h2 | ⟨vs0, hm, hq1, -⟩
      · exact Or.inl ⟨vs, h2⟩
      · exact Or.inr ⟨w1, by rw [h2.1]; exact List.mem_cons_self _ _⟩
      · exact Or.inr ⟨w1, by rw [hq1]; exact List.mem_cons_self _ _⟩
    · exact Or.inr ⟨w, List.mem_cons_of_mem _ hw⟩

theorem foldAppend_val : ∀ (hs : List (Bytes × Bytes)) (d : Kvlm) (q : Bytes × List Bytes)
    (v : Bytes), q ∈ foldAppend d hs → v ∈ q.2 →
    (∃ vs0, (q.1, vs0) ∈ d ∧ v ∈ vs0) ∨ ∃ w, (q.1, w) ∈ hs ∧ v = decCont w := by
  intro hs
  induction hs with
  | nil =>
    intro d q v h hv
    exact Or.inl ⟨q.2, h, hv⟩
  | cons p hs' ih =>
    intro d q v h hv
    obtain ⟨k1, w1⟩ := p
    rcases ih (btAppend d k1 (decCont w1)) q v h hv with ⟨vs0, h0, hv0⟩ | ⟨w, hw, rfl⟩
    · rcases btAppend_entry_cases d k1 (decCont w1) (q.1, vs0) h0 with h2 | h2 | ⟨vs1, hm, hq1, hq2⟩
      · exact Or.inl ⟨vs0, h2, hv0⟩
      · have hveq : v = decCont w1 := by
          have := h2.2
          simp at this
          rw [this] at hv0
          simpa using hv0
        exact Or.inr ⟨w1, by rw [h2.1]; exact List.mem_cons_self _ _, hveq⟩
      · have : vs0 = vs1 ++ [decCont w1] := by simpa using hq2
        rw [this] at hv0
        rcases List.mem_append.mp hv0 with hv1 | hv1
        · exact Or.inl ⟨vs1, by rw [hq1]; exact hm, hv1⟩
        · exact Or.inr ⟨w1, by rw [hq1]; exact List.mem_cons_self _ _, by simpa using hv1⟩
    · exact Or.inr ⟨w, List.mem_cons_of_mem _ hw, rfl⟩

theorem btAppend_val_ne_nil : ∀ (m : Kvlm) (k v : Bytes),
    (∀ q ∈ m, q.2 ≠ []) → ∀ q ∈ btAppend m k v, q.2 ≠ []
  | [], k, v, _, q, hq => by
    simp [btAppend] at hq
    rw [hq]
    simp
  | (k0, vs0) :: rest, k, v, h, q, hq => by
    rw [btAppend] at hq
    split_ifs at hq with h1 h2
    · rcases List.mem_cons.mp hq with hq | hq
      · rw [hq]
        simp
      · exact h q (List.mem_cons_of_mem _ hq)
    · rcases List.mem_cons.mp hq with hq | hq
      · rw [hq]
        simp
      · exact h q hq
    · rcases List.mem_cons.mp hq with hq | hq
      · exact h q (by rw [hq]; exact List.mem_cons_self _ _)
      · exact btAppend_val_ne_nil rest k v (fun r hr => h r (List.mem_cons_of_mem _ hr)) q hq

theorem foldAppend_val_ne_nil : ∀ (hs : List (Bytes × Bytes)) (d : Kvlm),
    (∀ q ∈ d, q.2 ≠ []) → ∀ q ∈ foldAppend d hs, q.2 ≠ [] := by
  intro hs
  induction hs with
  | nil => intro d h q hq; exact h q hq
  | cons p hs' ih =>
    intro d h q hq
    exact ih (btAppend d p.1 (decCont p.2)) (btAppend_val_ne_nil d p.1 (decCont p.2) h) q hq

theorem btGet_none_of_lt : ∀ (m : Kvlm) (k : Bytes),
    (∀ q ∈ m, bytesLt k q.1 = true) → btGet m k = none
  | [], _, _ => rfl
  | (k0, vs0) :: rest, k, h => by
    have hne : k ≠ k0 := by
      intro he
      have := h (k0, vs0) (List.mem_cons_self _ _)
      rw [← he, bytesLt_irrefl] at this
      cases this
    rw [btGet, if_neg hne]
    exact btGet_none_of_lt rest k fun q hq => h q (List.mem_cons_of_mem _ hq)

theorem btAppend_sorted : ∀ (m : Kvlm) (k v : Bytes),
    KvSorted m → KvSorted (btAppend m k v)
  | [], k, v, _ => by
    unfold KvSorted btAppend
    simp
  | (k0, vs0) :: rest, k, v, h => by
    obtain ⟨h0, hrest⟩ := List.pairwise_cons.mp h
    rw [btAppend]
    split_ifs with h1 h2
    · exact List.pairwise_cons.mpr ⟨h0, hrest⟩
    · refine List.pairwise_cons.mpr ⟨?_, List.pairwise_cons.mpr ⟨h0, hrest⟩⟩
      intro q hq
      rcases List.mem_cons.mp hq with hq | hq
      · rw [hq]
        exact h2
      · exact bytesLt_trans h2 (h0 q hq)
    · refine List.pairwise_cons.mpr ⟨?_, btAppend_sorted rest k v hrest⟩
      intro q hq
      rcases btAppend_entry_cases rest k v q hq with hq2 | hq2 | ⟨vs1, hm, hq1, -⟩
      · exact h0 q hq2
      · rw [hq2.1]
        rcases bytesLt_total k k0 with he | hlt | hlt
        · exact absurd he h1
        · exact absurd hlt h2
        · exact hlt
      · rw [hq1]
        rcases bytesLt_total k k0 with he | hlt | hlt
        · exact absurd he h1
        · exact absurd hlt h2
        · exact hlt

theorem foldAppend_sorted : ∀ (hs : List (Bytes × Bytes)) (d : Kvlm),
    KvSorted d → KvSorted (foldAppend d hs) := by
  intro hs
  induction hs with
  | nil => intro d h; exact h
  | cons p hs' ih =>
    intro d h
    exact ih (btAppend d p.1 (decCont p.2)) (btAppend_sorted d p.1 (decCont p.2) h)

theorem btGet_btAppend_self : ∀ (m : Kvlm) (k v : Bytes), KvSorted m →
    btGet (btAppend m k v) k = some ((btGet m k).getD [] ++ [v])
  | [], k, v, _ => by
    simp [btAppend, btGet]
  | (k0, vs0) :: rest, k, v, h => by
    obtain ⟨h0, hrest⟩ := List.pairwise_cons.mp h
    by_cases h1 : k = k0
    · subst h1
      rw [btAppend, if_pos rfl, btGet, if_pos rfl, btGet, if_pos rfl]
      rfl
    · by_cases h2 : bytesLt k k0 = true
      · have hget : btGet ((k0, vs0) :: rest) k = none := by
          refine btGet_none_of_lt _ _ ?_
          intro q hq
          rcases List.mem_cons.mp hq with hq | hq
          · rw [hq]
            exact h2
          · exact bytesLt_trans h2 (h0 q hq)
        rw [btAppend, if_neg h1, if_pos h2, btGet, if_pos rfl, hget]
        rfl
      · have h2' : ¬(bytesLt k k0 = true) := h2
        rw [btAppend, if_neg h1, if_neg h2', btGet, if_neg h1, btGet, if_neg h1]
        exact btGet_btAppend_self rest k v hrest

theorem btGet_btAppend_other : ∀ (m : Kvlm) (k' v k : Bytes), k ≠ k' →
    btGet (btAppend m k' v) k = btGet m k
  | [], k', v, k, hne => by
    simp [btAppend, btGet, hne]
  | (k0, vs0) :: rest, k', v, k, hne => by
    by_cases h1 : k' = k0
    · subst h1
      rw [btAppend, if_pos rfl, btGet, if_neg hne, btGet, if_neg hne]
    · by_cases h2 : bytesLt k' k0 = true
      · rw [btAppend, if_neg h1, if_pos h2, btGet, if_neg hne]
      · rw [btAppend, if_neg h1, if_neg h2]
        by_cases he0 : k = k0
        · rw [btGet, if_pos he0, btGet, if_pos he0]
        · rw [btGet, if_neg he0, btGet, if_neg he0]
          exact btGet_btAppend_other rest k' v k hne

theorem btInsert_min (m : Kvlm) (h : ∀ q ∈ m, q.1 ≠ []) (vs : List Bytes) :
    btInsert m [] vs = ([], vs) :: m := by
  cases m with
  | nil => rfl
  | cons p rest =>
    obtain ⟨k0, vs0⟩ := p
    have hk0 : k0 ≠ [] := h (k0, vs0) (List.mem_cons_self _ _)
    rw [btInsert, if_neg (fun he => hk0 he.symm), if_pos (bytesLt_nil hk0)]

end WyaG

namespace WyaG

/-! ## Rebuilding a map from its serialized header lines -/

theorem btGet_foldAppend : ∀ (hs : List (Bytes × Bytes)) (d : Kvlm), KvSorted d →
    ∀ k, btGet (foldAppend d hs) k =
      match btGet d k, vsOf hs k with
      | none, [] => none
      | none, vs => some vs
      | some u, vs => some (u ++ vs) := by
  intro hs
  induction hs with
  | nil =>
    intro d _ k
    cases hg : btGet d k with
    | none =>
      show btGet d k = _
      rw [hg]
      rfl
    | some u =>
      show btGet d k = _
      rw [hg]
      simp [vsOf]
  | cons p hs' ih =>
    intro d hsort k
    obtain ⟨k1, w1⟩ := p
    have hsort' : KvSorted (btAppend d k1 (decCont w1)) := btAppend_sorted _ _ _ hsort
    have hstep : foldAppend d ((k1, w1) :: hs') =
        foldAppend (btAppend d k1 (decCont w1)) hs' := rfl
    rw [hstep, ih _ hsort' k]
    by_cases he : k = k1
    · subst he
      rw [btGet_btAppend_self d k (decCont w1) hsort]
      have hvs : vsOf ((k, w1) :: hs') k = decCont w1 :: vsOf hs' k := by
        simp [vsOf, List.filter_cons]
      rw [hvs]
      cases hg : btGet d k with
      | none => simp
      | some u => simp
    · rw [btGet_btAppend_other d k1 (decCont w1) k he]
      have hbe : (k1 == k) = false := beq_eq_false_iff_ne.mpr (Ne.symm he)
      have hvs : vsOf ((k1, w1) :: hs') k = vsOf hs' k := by
        simp [vsOf, List.filter_cons, hbe]
      rw [hvs]

theorem btAppend_gt : ∀ (d : Kvlm) (k v : Bytes), (∀ q ∈ d, bytesLt q.1 k = true) →
    btAppend d k v = d ++ [(k, [v])]
  | [], _, _, _ => rfl
  | (k0, vs0) :: rest, k, v, h => by
    have hlt : bytesLt k0 k = true := h (k0, vs0) (List.mem_cons_self _ _)
    have hne : k ≠ k0 := by
      intro he
      rw [he, bytesLt_irrefl] at hlt
      cases hlt
    have hnlt : ¬(bytesLt k k0 = true) := by
      rw [bytesLt_asymm hlt]
      simp
    rw [btAppend, if_neg hne, if_neg hnlt,
      btAppend_gt rest k v fun q hq => h q (List.mem_cons_of_mem _ hq)]
    rfl

theorem btAppend_last : ∀ (d : Kvlm) (k : Bytes) (acc : List Bytes) (v : Bytes),
    (∀ q ∈ d, bytesLt q.1 k = true) →
    btAppend (d ++ [(k, acc)]) k v = d ++ [(k, acc ++ [v])]
  | [], k, acc, v, _ => by
    simp [btAppend]
  | (k0, vs0) :: rest, k, acc, v, h => by
    have hlt : bytesLt k0 k = true := h (k0, vs0) (List.mem_cons_self _ _)
    have hne : k ≠ k0 := by
      intro he
      rw [he, bytesLt_irrefl] at hlt
      cases hlt
    have hnlt : ¬(bytesLt k k0 = true) := by
      rw [bytesLt_asymm hlt]
      simp
    rw [List.cons_append, btAppend, if_neg hne, if_neg hnlt,
      btAppend_last rest k acc v fun q hq => h q (List.mem_cons_of_mem _ hq)]
    rfl

theorem fold_same_key : ∀ (vs : List Bytes) (d : Kvlm) (k : Bytes) (acc : List Bytes),
    (∀ q ∈ d, bytesLt q.1 k = true) →
    List.foldl (fun dd p => btAppend dd p.1 (decCont p.2)) (d ++ [(k, acc)])
      (vs.map fun v => (k, encCont v)) = d ++ [(k, acc ++ vs)] := by
  intro vs
  induction vs with
  | nil =>
    intro d k acc _
    simp
  | cons v vs' ih =>
    intro d k acc h
    simp only [List.map_cons, List.foldl_cons]
    rw [show btAppend (d ++ [(k, acc)]) k (decCont (encCont v)) = d ++ [(k, acc ++ [v])] from by
      rw [decCont_encCont, btAppend_last d k acc v h]]
    rw [ih d k (acc ++ [v]) h]
    simp

theorem hdrsOf_cons (p : Bytes × List Bytes) (t : Kvlm) :
    hdrsOf (p :: t) =
      (if p.1 = [] then [] else p.2.map fun v => (p.1, encCont v)) ++ hdrsOf t := by
  simp [hdrsOf]

theorem rebuild : ∀ (t d : Kvlm), KvSorted (d ++ t) →
    (∀ q ∈ t, q.1 ≠ []) → (∀ q ∈ t, q.2 ≠ []) →
    foldAppend d (hdrsOf t) = d ++ t := by
  intro t
  induction t with
  | nil =>
    intro d _ _ _
    simp [hdrsOf, foldAppend]
  | cons p t' ih =>
    intro d hsort hk hv
    obtain ⟨k, vs⟩ := p
    have hkne : k ≠ [] := hk (k, vs) (List.mem_cons_self _ _)
    have hvne : vs ≠ [] := hv (k, vs) (List.mem_cons_self _ _)
    obtain ⟨v0, vs', rfl⟩ : ∃ v0 vs', vs = v0 :: vs' := by
      cases vs with
      | nil => exact absurd rfl hvne
      | cons a b => exact ⟨a, b, rfl⟩
    have hdlt : ∀ q ∈ d, bytesLt q.1 k = true := by
      have hP : List.Pairwise (fun p q => bytesLt p.1 q.1 = true)
          (d ++ (k, v0 :: vs') :: t') := hsort
      rw [List.pairwise_append] at hP
      exact fun q hq => hP.2.2 q hq (k, v0 :: vs') (List.mem_cons_self _ _)
    rw [hdrsOf_cons, if_neg hkne]
    simp only [foldAppend] at ih ⊢
    rw [List.foldl_append]
    simp only [List.map_cons, List.foldl_cons]
    rw [show btAppend d k (decCont (encCont v0)) = d ++ [(k, [v0])] from by
      rw [decCont_encCont, btAppend_gt d k v0 hdlt]]
    rw [fold_same_key vs' d k [v0] hdlt]
    have hsort' : KvSorted ((d ++ [(k, v0 :: vs')]) ++ t') := by
      have : (d ++ [(k, v0 :: vs')]) ++ t' = d ++ (k, v0 :: vs') :: t' := by simp
      rw [this]
      exact hsort
    have hrec := ih (d ++ [(k, v0 :: vs')]) hsort'
      (fun q hq => hk q (List.mem_cons_of_mem _ hq))
      (fun q hq => hv q (List.mem_cons_of_mem _ hq))
    have hfix : d ++ [(k, [v0] ++ vs')] = d ++ [(k, v0 :: vs')] := by simp
    rw [hfix, hrec]
    simp

theorem serialize_lines : ∀ (X : Kvlm),
    (X.map fun p => if p.1 = [] then []
        else (p.2.map fun v => p.1 ++ 32 :: encCont v ++ [10]).flatten).flatten =
      ((hdrsOf X).map renderHeader).flatten := by
  intro X
  induction X with
  | nil => rfl
  | cons p X' ih =>
    simp only [List.map_cons, List.flatten_cons, hdrsOf_cons]
    by_cases hp : p.1 = []
    · rw [if_pos hp, if_pos hp]
      simpa using ih
    · rw [if_neg hp, if_neg hp, List.map_append, List.flatten_append, ih]
      congr 1
      rw [List.map_map]
      rfl

theorem kvlmSerialize_render (X : Kvlm) (msg : Bytes) :
    kvlmSerialize (([], [msg]) :: X) = some (renderKvlm (hdrsOf X) msg) := by
  unfold kvlmSerialize
  rw [show btGet (([], [msg]) :: X) [] = some [msg] from by rw [btGet, if_pos rfl]]
  unfold renderKvlm
  rw [serialize_lines (([], [msg]) :: X), hdrsOf_cons]
  simp

theorem btAppend_mem_key : ∀ (m : Kvlm) (k v : Bytes), ∃ vs, (k, vs) ∈ btAppend m k v
  | [], k, v => ⟨[v], by simp [btAppend]⟩
  | (k0, vs0) :: rest, k, v => by
    rw [btAppend]
    split_ifs with h1 h2
    · subst h1
      exact ⟨vs0 ++ [v], List.mem_cons_self _ _⟩
    · exact ⟨[v], List.mem_cons_self _ _⟩
    · obtain ⟨vs, hvs⟩ := btAppend_mem_key rest k v
      exact ⟨vs, List.mem_cons_of_mem _ hvs⟩

theorem btAppend_preserves_key : ∀ (m : Kvlm) (k0 : Bytes) (vs0 : List Bytes)
    (k v : Bytes), (k0, vs0) ∈ m → ∃ vs, (k0, vs) ∈ btAppend m k v
  | [], _, _, _, _, h => by cases h
  | (k1, vs1) :: rest, k0, vs0, k, v, h => by
    rw [btAppend]
    split_ifs with h1 h2
    · subst h1
      rcases List.mem_cons.mp h with h | h
      · exact ⟨vs1 ++ [v], by rw [show k0 = k from congrArg Prod.fst h]; exact List.mem_cons_self _ _⟩
      · exact ⟨vs0, List.mem_cons_of_mem _ h⟩
    · exact ⟨vs0, List.mem_cons_of_mem _ h⟩
    · rcases List.mem_cons.mp h with h | h
      · refine ⟨vs1, ?_⟩
        have hk : k0 = k1 := congrArg Prod.fst h
        rw [hk]
        exact List.mem_cons_self _ _
      · obtain ⟨vs, hvs⟩ := btAppend_preserves_key rest k0 vs0 k v h
        exact ⟨vs, List.mem_cons_of_mem _ hvs⟩

theorem foldAppend_preserves_key : ∀ (hs : List (Bytes × Bytes)) (d : Kvlm)
    (k : Bytes) (vs : List Bytes), (k, vs) ∈ d → ∃ vs', (k, vs') ∈ foldAppend d hs := by
  intro hs
  induction hs with
  | nil => intro d k vs h; exact ⟨vs, h⟩
  | cons p hs' ih =>
    intro d k vs h
    obtain ⟨vs1, hvs1⟩ := btAppend_preserves_key d k vs p.1 (decCont p.2) h
    exact ih (btAppend d p.1 (decCont p.2)) k vs1 hvs1

theorem foldAppend_mem_of_mem : ∀ (hs : List (Bytes × Bytes)) (d : Kvlm)
    (k w : Bytes), (k, w) ∈ hs → ∃ vs, (k, vs) ∈ foldAppend d hs := by
  intro hs
  induction hs with
  | nil => intro d k w h; cases h
  | cons p hs' ih =>
    intro d k w h
    rcases List.mem_cons.mp h with h | h
    · obtain ⟨k1, w1⟩ := p
      obtain ⟨hk, -⟩ := Prod.mk.injEq .. ▸ h
      obtain ⟨vs1, hvs1⟩ := btAppend_mem_key d k1 (decCont w1)
      have hk' : k = k1 := congrArg Prod.fst h
      rw [hk']
      exact foldAppend_preserves_key hs' _ k1 vs1 hvs1
    · exact ih (btAppend d p.1 (decCont p.2)) k w h

theorem hdrsOf_mem {X : Kvlm} {q : Bytes × Bytes} (h : q ∈ hdrsOf X) :
    ∃ k vs v, (k, vs) ∈ X ∧ v ∈ vs ∧ k ≠ [] ∧ q = (k, encCont v) := by
  unfold hdrsOf at h
  rw [List.mem_flatMap] at h
  obtain ⟨p, hp, hq⟩ := h
  by_cases hk : p.1 = []
  · rw [if_pos hk] at hq
    cases hq
  · rw [if_neg hk] at hq
    rw [List.mem_map] at hq
    obtain ⟨v, hv, rfl⟩ := hq
    exact ⟨p.1, p.2, v, by simpa using hp, hv, hk, rfl⟩

end WyaG

namespace WyaG

/-! ## The kvlm round-trip and repeated-key claims -/

/-- C4: for every well-formed kvlm byte sequence `b`, decoding succeeds,
re-encoding the decoded mapping succeeds, and decoding the re-encoded bytes
yields a mapping equal (same key-to-ordered-value-sequence associations,
same message under the empty key) to the first decode — even though the
emitted header byte order is the map's sorted order, which may differ from
`b`'s. -/
theorem c4_kvlm_roundtrip (b : Bytes) (h : WellFormedKvlm b) :
    ∃ m b', kvlmParse b = .ok m ∧ kvlmSerialize m = some b' ∧ kvlmParse b' = .ok m := by
  obtain ⟨hs, msg, hne, hwf, hmsg, rfl⟩ := h
  have hp1 : kvlmParse (renderKvlm hs msg) = .ok (btInsert (foldAppend [] hs) [] [msg]) := by
    unfold kvlmParse
    exact kvlmParseAux_render hs _ _ 0 [] msg hwf hmsg (by simp)
      (fun hx => absurd hx hne)
      (by have := renderKvlm_length hs msg; omega)
  have hXsorted : KvSorted (foldAppend [] hs) := foldAppend_sorted hs [] List.Pairwise.nil
  have hXkeys : ∀ q ∈ foldAppend [] hs, q.1 ≠ [] := by
    intro q hq
    rcases foldAppend_key hs [] q hq with ⟨vs, hvs⟩ | ⟨w, hw⟩
    · cases hvs
    · exact (hwf (q.1, w) hw).1
  have hXvals : ∀ q ∈ foldAppend [] hs, q.2 ≠ [] :=
    foldAppend_val_ne_nil hs [] (fun q hq => by cases hq)
  have hm : btInsert (foldAppend [] hs) [] [msg] = ([], [msg]) :: foldAppend [] hs :=
    btInsert_min _ hXkeys [msg]
  have hwf2 : ∀ q ∈ hdrsOf (foldAppend [] hs), HdrWF q := by
    intro q hq
    obtain ⟨k, vs, v, hmem, hv, hkne, rfl⟩ := hdrsOf_mem hq
    rcases foldAppend_val hs [] (k, vs) v hmem hv with ⟨vs0, h0, -⟩ | ⟨w, hw, hveq⟩
    · cases h0
    · obtain ⟨hk1, hk2, hk3, hk4, hk5, hk6⟩ := hwf (k, w) hw
      have henc : encCont v = w := by
        rw [hveq]
        exact encCont_decCont w hk6
      refine ⟨hkne, hk2, hk3, hk4, ?_, ?_⟩
      · rw [henc]
        exact hk5
      · rw [henc]
        exact hk6
  have hne2 : hdrsOf (foldAppend [] hs) ≠ [] := by
    obtain ⟨⟨k1, w1⟩, hh⟩ : ∃ p, p ∈ hs := by
      cases hs with
      | nil => exact absurd rfl hne
      | cons a l => exact ⟨a, List.mem_cons_self _ _⟩
    obtain ⟨vs, hvs⟩ : ∃ vs, (k1, vs) ∈ foldAppend [] hs :=
      foldAppend_mem_of_mem hs [] k1 w1 hh
    obtain ⟨v0, vs', rfl⟩ : ∃ v0 vs', vs = v0 :: vs' := by
      have := hXvals (k1, vs) hvs
      cases vs with
      | nil => exact absurd rfl this
      | cons a l => exact ⟨a, l, rfl⟩
    have hk1ne : k1 ≠ [] := hXkeys (k1, v0 :: vs') hvs
    have : (k1, encCont v0) ∈ hdrsOf (foldAppend [] hs) := by
      unfold hdrsOf
      rw [List.mem_flatMap]
      refine ⟨(k1, v0 :: vs'), hvs, ?_⟩
      rw [if_neg hk1ne]
      exact List.mem_map.mpr ⟨v0, List.mem_cons_self _ _, rfl⟩
    exact List.ne_nil_of_mem this
  have hser : kvlmSerialize (([], [msg]) :: foldAppend [] hs) =
      some (renderKvlm (hdrsOf (foldAppend [] hs)) msg) :=
    kvlmSerialize_render _ msg
  have hp2 : kvlmParse (renderKvlm (hdrsOf (foldAppend [] hs)) msg) =
      .ok (btInsert (foldAppend [] (hdrsOf (foldAppend [] hs))) [] [msg]) := by
    unfold kvlmParse
    exact kvlmParseAux_render _ _ _ 0 [] msg hwf2 hmsg (by simp)
      (fun hx => absurd hx hne2)
      (by have := renderKvlm_length (hdrsOf (foldAppend [] hs)) msg; omega)
  have hrebuild : foldAppend [] (hdrsOf (foldAppend [] hs)) = foldAppend [] hs := by
    have := rebuild (foldAppend [] hs) [] (by simpa using hXsorted) hXkeys hXvals
    simpa using this
  refine ⟨([], [msg]) :: foldAppend [] hs, renderKvlm (hdrsOf (foldAppend [] hs)) msg,
    ?_, ?_, ?_⟩
  · rw [hp1, hm]
  · exact hser
  · rw [hp2, hrebuild, btInsert_min _ hXkeys]

end WyaG

namespace WyaG

/-- Witness for C4 at the payload `"tree ab\nparent cd\n\nmsg"`. -/
theorem c4_kvlm_roundtrip_witness :
    WellFormedKvlm (renderKvlm [([116, 114, 101, 101], [97, 98]),
        ([112, 97, 114, 101, 110, 116], [99, 100])] [109, 115, 103]) ∧
      ∃ m b', kvlmParse (renderKvlm [([116, 114, 101, 101], [97, 98]),
            ([112, 97, 114, 101, 110, 116], [99, 100])] [109, 115, 103]) = .ok m ∧
          kvlmSerialize m = some b' ∧ kvlmParse b' = .ok m :=
  have hwf : WellFormedKvlm (renderKvlm [([116, 114, 101, 101], [97, 98]),
      ([112, 97, 114, 101, 110, 116], [99, 100])] [109, 115, 103]) :=
    ⟨[([116, 114, 101, 101], [97, 98]), ([112, 97, 114, 101, 110, 116], [99, 100])],
      [109, 115, 103], by decide, by decide, by decide, rfl⟩
  ⟨hwf, c4_kvlm_roundtrip _ hwf⟩

/-- C6: decoding a well-formed kvlm payload in which a key occurs on several
header lines yields, for that key, exactly the sequence of its decoded
values in input (line) order — later values are appended, never
overwritten. -/
theorem c6_kvlm_repeated_keys (hs : List (Bytes × Bytes)) (msg k : Bytes)
    (hne : hs ≠ []) (hwf : ∀ p ∈ hs, HdrWF p) (hmsg : validUtf8 msg = true)
    (hk : k ≠ []) :
    ∃ m, kvlmParse (renderKvlm hs msg) = .ok m ∧
      btGet m k = if vsOf hs k = [] then none else some (vsOf hs k) := by
  have hp1 : kvlmParse (renderKvlm hs msg) = .ok (btInsert (foldAppend [] hs) [] [msg]) := by
    unfold kvlmParse
    exact kvlmParseAux_render hs _ _ 0 [] msg hwf hmsg (by simp)
      (fun hx => absurd hx hne)
      (by have := renderKvlm_length hs msg; omega)
  have hXkeys : ∀ q ∈ foldAppend [] hs, q.1 ≠ [] := by
    intro q hq
    rcases foldAppend_key hs [] q hq with ⟨vs, hvs⟩ | ⟨w, hw⟩
    · cases hvs
    · exact (hwf (q.1, w) hw).1
  have hm : btInsert (foldAppend [] hs) [] [msg] = ([], [msg]) :: foldAppend [] hs :=
    btInsert_min _ hXkeys [msg]
  refine ⟨([], [msg]) :: foldAppend [] hs, by rw [hp1, hm], ?_⟩
  rw [btGet, if_neg hk, btGet_foldAppend hs [] List.Pairwise.nil k]
  cases hv : vsOf hs k with
  | nil => simp [btGet]
  | cons a l => simp [btGet]

/-- Witness for C6 at the payload with two `parent` lines:
`"tree ab\nparent cd\nparent ef\n\nm"`. -/
theorem c6_kvlm_repeated_keys_witness :
    ([([116, 114, 101, 101], [97, 98]), ([112, 97, 114, 101, 110, 116], [99, 100]),
        ([112, 97, 114, 101, 110, 116], [101, 102])] : List (Bytes × Bytes)) ≠ [] ∧
      ∃ m, kvlmParse (renderKvlm [([116, 114, 101, 101], [97, 98]),
            ([112, 97, 114, 101, 110, 116], [99, 100]),
            ([112, 97, 114, 101, 110, 116], [101, 102])] [109]) = .ok m ∧
        btGet m [112, 97, 114, 101, 110, 116] =
          if vsOf [([116, 114, 101, 101], [97, 98]), ([112, 97, 114, 101, 110, 116], [99, 100]),
              ([112, 97, 114, 101, 110, 116], [101, 102])] [112, 97, 114, 101, 110, 116] = []
          then none
          else some (vsOf [([116, 114, 101, 101], [97, 98]),
              ([112, 97, 114, 101, 110, 116], [99, 100]),
              ([112, 97, 114, 101, 110, 116], [101, 102])] [112, 97, 114, 101, 110, 116]) :=
  ⟨by decide,
    c6_kvlm_repeated_keys _ [109] [112, 97, 114, 101, 110, 116]
      (by decide) (by decide) (by decide) (by decide)⟩

end WyaG

namespace WyaG

/-! ## The visited-set invariant of the log traversal -/

theorem logGraphviz_inv : ∀ (n : Nat) (store : Store) (sha : Bytes) (seen : List Bytes),
    LogInv (logGraphviz store sha seen n) seen := by
  intro n
  induction n with
  | zero =>
    intro store sha seen
    refine ⟨by simp [logGraphviz], by simp [logGraphviz], by simp [logGraphviz]⟩
  | succ n ih =>
    intro store sha seen
    have hpar : ∀ (ps : List Bytes) (sha' : Bytes) (seen' : List Bytes),
        LogInv (logParents store sha' ps seen' n) seen' := by
      intro ps
      induction ps with
      | nil =>
        intro sha' seen'
        refine ⟨by simp [logParents], by simp [logParents], by simp [logParents]⟩
      | cons p ps' ihp =>
        intro sha' seen'
        obtain ⟨hrN, hrS, hrI⟩ := ih store p seen'
        rw [logParents]
        cases hres : (logGraphviz store p seen' n).res with
        | ok =>
          obtain ⟨htN, htS, htI⟩ := ihp sha' (logGraphviz store p seen' n).seen
          dsimp only
          refine ⟨?_, ?_, ?_⟩
          · refine List.Nodup.append hrN htN ?_
            intro s hs1 hs2
            have h1 : s ∈ (logGraphviz store p seen' n).seen := (hrI s).mpr (Or.inr hs1)
            exact htS s hs2 h1
          · intro s hs
            rcases List.mem_append.mp hs with hs | hs
            · exact hrS s hs
            · intro hcon
              exact htS s hs ((hrI s).mpr (Or.inl hcon))
          · intro s
            constructor
            · intro hs
              rcases (htI s).mp hs with hs | hs
              · rcases (hrI s).mp hs with hs | hs
                · exact Or.inl hs
                · exact Or.inr (List.mem_append.mpr (Or.inl hs))
              · exact Or.inr (List.mem_append.mpr (Or.inr hs))
            · intro hs
              rcases hs with hs | hs
              · exact (htI s).mpr (Or.inl ((hrI s).mpr (Or.inl hs)))
              · rcases List.mem_append.mp hs with hs | hs
                · exact (htI s).mpr (Or.inl ((hrI s).mpr (Or.inr hs)))
                · exact (htI s).mpr (Or.inr hs)
        | err =>
          dsimp only
          exact ⟨hrN, hrS, hrI⟩
        | panicked =>
          dsimp only
          exact ⟨hrN, hrS, hrI⟩
        | diverged =>
          dsimp only
          exact ⟨hrN, hrS, hrI⟩
        | fuelOut =>
          dsimp only
          exact ⟨hrN, hrS, hrI⟩
    by_cases hseen : sha ∈ seen
    · rw [logGraphviz, if_pos hseen]
      refine ⟨by simp, by simp, by simp⟩
    · have hbase : ∀ res edges, LogInv ⟨res, edges, sha :: seen, [sha]⟩ seen := by
        intro res edges
        refine ⟨by simp, ?_, ?_⟩
        · intro s hs
          have : s = sha := by simpa using hs
          rw [this]
          exact hseen
        · intro s
          simp [List.mem_cons]
          tauto
      rw [logGraphviz, if_neg hseen]
      dsimp only
      cases hs : storeGet store sha with
      | none => exact hbase _ _
      | some raw =>
        dsimp only
        cases hr : readObject raw with
        | errUtf8 => exact hbase _ _
        | errParseInt => exact hbase _ _
        | panicked => exact hbase _ _
        | diverged => exact hbase _ _
        | ok obj =>
          dsimp only
          cases hso : serializeObj obj with
          | none => exact hbase _ _
          | some td =>
            obtain ⟨t, d⟩ := td
            dsimp only
            cases hkv : kvlmParse d with
            | utf8Err => exact hbase _ _
            | panicked => exact hbase _ _
            | fuelOut => exact hbase _ _
            | ok km =>
              dsimp only
              cases hbt : btGet km parentKey with
              | none => exact hbase _ _
              | some ps =>
                dsimp only
                obtain ⟨hpN, hpS, hpI⟩ := hpar ps sha (sha :: seen)
                refine ⟨?_, ?_, ?_⟩
                · refine List.Nodup.cons ?_ hpN
                  intro hcon
                  exact hpS sha hcon (List.mem_cons_self _ _)
                · intro s hsp
                  rcases List.mem_cons.mp hsp with hsp | hsp
                  · rw [hsp]
                    exact hseen
                  · intro hcon
                    exact hpS s hsp (List.mem_cons_of_mem _ hcon)
                · intro s
                  constructor
                  · intro hsp
                    rcases (hpI s).mp hsp with hsp | hsp
                    · rcases List.mem_cons.mp hsp with hsp | hsp
                      · exact Or.inr (by rw [hsp]; exact List.mem_cons_self _ _)
                      · exact Or.inl hsp
                    · exact Or.inr (List.mem_cons_of_mem _ hsp)
                  · intro hsp
                    rcases hsp with hsp | hsp
                    · exact (hpI s).mpr (Or.inl (List.mem_cons_of_mem _ hsp))
                    · rcases List.mem_cons.mp hsp with hsp | hsp
                      · exact (hpI s).mpr (Or.inl (by rw [hsp]; exact List.mem_cons_self _ _))
                      · exact (hpI s).mpr (Or.inr hsp)

end WyaG

namespace WyaG

/-- C8: the commit-ancestry enumeration (a) processes every identifier at
most once when started from an empty visited set, (b) returns immediately
on a revisit, (c) ends its branch at a commit with no `parent` header, and
(d) dispatches a commit with parents to the parent loop, which (e) prints
the edge `(child, parent)` before recursing into that parent. -/
theorem c8_log_traversal (store : Store) (sha : Bytes) (fuel : Nat) :
    (logGraphviz store sha [] fuel).processed.Nodup
    ∧ (∀ seen, sha ∈ seen → logGraphviz store sha seen (fuel + 1) = ⟨.ok, [], seen, []⟩)
    ∧ (∀ seen raw obj t d km, sha ∉ seen → storeGet store sha = some raw →
        readObject raw = .ok obj → serializeObj obj = some (t, d) →
        kvlmParse d = .ok km → btGet km parentKey = none →
        logGraphviz store sha seen (fuel + 1) = ⟨.ok, [], sha :: seen, [sha]⟩)
    ∧ (∀ seen raw obj t d km ps, sha ∉ seen → storeGet store sha = some raw →
        readObject raw = .ok obj → serializeObj obj = some (t, d) →
        kvlmParse d = .ok km → btGet km parentKey = some ps →
        logGraphviz store sha seen (fuel + 1) =
          ⟨(logParents store sha ps (sha :: seen) fuel).res,
           (logParents store sha ps (sha :: seen) fuel).edges,
           (logParents store sha ps (sha :: seen) fuel).seen,
           sha :: (logParents store sha ps (sha :: seen) fuel).processed⟩)
    ∧ (∀ p ps seen', (logParents store sha (p :: ps) seen' fuel).edges.head? =
        some (sha, p)) := by
  refine ⟨(logGraphviz_inv fuel store sha []).1, ?_, ?_, ?_, ?_⟩
  · intro seen h
    rw [logGraphviz, if_pos h]
  · intro seen raw obj t d km hns hsg hro hso hkv hbt
    rw [logGraphviz, if_neg hns]
    dsimp only
    rw [hsg]
    dsimp only
    rw [hro]
    dsimp only
    rw [hso]
    dsimp only
    rw [hkv]
    dsimp only
    rw [hbt]
  · intro seen raw obj t d km ps hns hsg hro hso hkv hbt
    rw [logGraphviz, if_neg hns]
    dsimp only
    rw [hsg]
    dsimp only
    rw [hro]
    dsimp only
    rw [hso]
    dsimp only
    rw [hkv]
    dsimp only
    rw [hbt]
  · intro p ps seen'
    rw [logParents]
    cases hres : (logGraphviz store p seen' fuel).res with
    | ok => simp
    | err => simp
    | panicked => simp
    | diverged => simp
    | fuelOut => simp

/-- Witness for C8 on the two-commit store `c8store` (child `beef` with
parent `c0ffee`, the parent a root commit). -/
theorem c8_log_traversal_witness :
    c8shaRoot ∈ [c8shaRoot] ∧
      logGraphviz c8store c8shaRoot [c8shaRoot] 5 = ⟨.ok, [], [c8shaRoot], []⟩ ∧
      logGraphviz c8store c8shaRoot [] 5 = ⟨.ok, [], [c8shaRoot], [c8shaRoot]⟩ ∧
      logGraphviz c8store c8shaChild [] 5 =
        ⟨(logParents c8store c8shaChild [c8shaRoot] [c8shaChild] 4).res,
         (logParents c8store c8shaChild [c8shaRoot] [c8shaChild] 4).edges,
         (logParents c8store c8shaChild [c8shaRoot] [c8shaChild] 4).seen,
         c8shaChild :: (logParents c8store c8shaChild [c8shaRoot] [c8shaChild] 4).processed⟩ ∧
      (logParents c8store c8shaChild [c8shaRoot] [c8shaChild] 4).edges.head? =
        some (c8shaChild, c8shaRoot) ∧
      (logGraphviz c8store c8shaChild [] 5).processed.Nodup := by
  have T4 := c8_log_traversal c8store c8shaRoot 4
  have T4c := c8_log_traversal c8store c8shaChild 4
  have T5c := c8_log_traversal c8store c8shaChild 5
  refine ⟨by decide, T4.2.1 [c8shaRoot] (by decide), ?_, ?_, ?_, T5c.1⟩
  · exact T4.2.2.1 [] c8rootRaw (.commit c8kmRoot) commitTag c8dRoot c8kmRoot
      (by decide) (by decide) (by decide) (by decide) (by decide) (by decide)
  · exact T4c.2.2.2.1 [] c8childRaw (.commit c8kmChild) commitTag c8dChild c8kmChild
      [c8shaRoot] (by decide) (by decide) (by decide) (by decide) (by decide) (by decide)
  · exact T4c.2.2.2.2 c8shaRoot [] [c8shaChild]

end WyaG
